import Mathlib

/-!
Jellyfish Merkle tree: hashing primitives, nibble paths, tree cache and batch preparation.

A shallow embedding of the Go package `jellyfish_merkle`
(`hash.go`, `nibble.go`, `node.go`, `tree_cache.go`, `tree.go`) together with
theorems about it.

Conventions of the embedding

* A Go `byte` is a `Fin 256`; a `[]byte` or a `string` is seen through its bytes.
* `uint` and `Version` (`uint64`) are natural numbers, every increment and
  decrement is written with an explicit `% 2 ^ 64` (a 64-bit platform).
* A Go function that can return an `error` or panic returns an `Outcome`.
* A method with a pointer receiver that mutates the receiver is a function from
  the state before the call to the state after it, paired with its result.
* A Go `map` is an association list read through its first binding of a key.
-/

namespace JellyfishMerkle

/-! ## Outcomes of a call -/

/-- The `error` values the package creates. -/
inductive GoError where
  /-- Go `errors.New("word length is too large")` -/
  | wordLengthTooLarge
  /-- Go `errors.New("invalid bytes len")` -/
  | invalidBytesLen
  /-- Go `errors.New("last nibble must be 0")` -/
  | lastNibbleMustBeZero
  /-- Go `errors.New("invalid nextVersion")` -/
  | invalidNextVersion
  /-- Go `fmt.Errorf("new node path failed caused by nibble path error %v", err)` -/
  | newNodePathFailed
  /-- Go `fmt.Errorf("new TreeCache failed caused by new NodeKey error %v", err)` -/
  | newTreeCacheFailed
  /-- Go `fmt.Errorf("get node failed caused by error %v", err)` -/
  | getNodeFailed
  /-- Go `fmt.Errorf("node with key %v already exists in NodeBatch", nodeKey)` -/
  | nodeAlreadyExists
  /-- Go `fmt.Errorf("batch put valueSet failed caused by error %v", err)` -/
  | batchPutFailed
  /-- An error produced by the `TreeReader` behind the cache. -/
  | readerFailure
deriving DecidableEq, Repr

/-- The run-time panics the package can raise. -/
inductive GoPanic where
  /-- Conversion of a slice to an array longer than the slice. -/
  | sliceToArrayTooShort
  /-- Index or slice bound out of range. -/
  | indexOutOfRange
  /-- Dereference of a nil pointer. -/
  | nilDereference
  /-- Go `panic("node gets stale twice unexpectedly.")` -/
  | staleTwice
  /-- Go `panic(fmt.Sprintf("root node with key %v must exist", rootNodeKey))` -/
  | rootMustExist
  /-- Go `panic("valueSets and hashSets length must be equal.")` -/
  | lengthMismatch
  /-- Go `panic(fmt.Sprintf("%v can not be found in hash cache", *nodeKey))` -/
  | hashCacheMiss
deriving DecidableEq, Repr

/-- What a call does: it returns a value, returns a non-nil `error`, or panics. -/
inductive Outcome (α : Type) where
  | ok (val : α)
  | err (e : GoError)
  | panic (p : GoPanic)
deriving DecidableEq, Repr

/-- The call returned normally with a nil error. -/
def Outcome.isOk {α : Type} : Outcome α → Bool
  | .ok _ => true
  | _ => false

/-- The call returned a non-nil error. -/
def Outcome.isErr {α : Type} : Outcome α → Bool
  | .err _ => true
  | _ => false

/-- The call panicked. -/
def Outcome.isPanic {α : Type} : Outcome α → Bool
  | .panic _ => true
  | _ => false

/-! ## hash.go -/

/-- A Go `byte`. -/
abbrev Byte := Fin 256

/-- Go `HashValueLength = 32`. -/
abbrev HashValueLength : Nat := 32

/-- Go `HashValueLengthInBits = HashValueLength * 8`. -/
abbrev HashValueLengthInBits : Nat := HashValueLength * 8

/-- The array type `[HashValueLength]byte`. -/
abbrev ByteArray32 := { l : List Byte // l.length = HashValueLength }

/-- The conversion `*(*[HashValueLength]byte)(s)` of a slice to an array: the
first 32 bytes of the slice; a run-time panic when the slice is shorter than
the array. -/
def sliceToArray32 (s : List Byte) : Outcome ByteArray32 :=
  if h : HashValueLength ≤ s.length then
    .ok ⟨s.take HashValueLength, by simp [List.length_take, h]⟩
  else
    .panic .sliceToArrayTooShort

/-- Go `type HashValue struct`, one field `hash [HashValueLength]byte`. -/
structure HashValue where
  hash : ByteArray32
deriving DecidableEq

/-- The bytes of a Go string constant: its UTF-8 encoding (`[]byte(word)`). -/
def stringBytes (word : String) : List Byte :=
  word.toUTF8.data.toList.map fun b => b.val

/-- Go `make([]byte, n)`: n zero bytes. -/
def makeBytes (n : Nat) : List Byte := List.replicate n 0

/-- Go `newHashValueFromSlice`. -/
def newHashValueFromSlice (word : List Byte) : Outcome HashValue :=
  match sliceToArray32 word with
  | .ok hash => .ok { hash := hash }
  | .err e => .err e
  | .panic p => .panic p

/-- Go `createLiteralHash`. -/
def createLiteralHash (word : String) : Outcome HashValue :=
  let wordBytes := stringBytes word
  let length := wordBytes.length
  if length > HashValueLength then
    .err .wordLengthTooLarge
  else
    let wordBytes := wordBytes ++ makeBytes (HashValueLength - length)
    newHashValueFromSlice wordBytes

/-! ## nibble.go -/

/-- Go `RootNibbleHeight = HashValueLength * 2`. -/
abbrev RootNibbleHeight : Nat := HashValueLength * 2

/-- Go `type NibblePath struct`: `numNibbles uint`, `bytes [HashValueLength]byte`. -/
structure NibblePath where
  numNibbles : Nat
  bytes : ByteArray32
deriving DecidableEq

/-- Go `newEvenNibblePath`. -/
def newEvenNibblePath (bytes : List Byte) : Outcome NibblePath :=
  let length := bytes.length
  if length > RootNibbleHeight / 2 then
    .err .invalidBytesLen
  else
    match sliceToArray32 bytes with
    | .ok bytesArray => .ok { numNibbles := length * 2, bytes := bytesArray }
    | .err e => .err e
    | .panic p => .panic p

/-- Go `newOddNibblePath`. -/
def newOddNibblePath (bytes : List Byte) : Outcome NibblePath :=
  let length := bytes.length
  if length > RootNibbleHeight / 2 then
    .err .invalidBytesLen
  else
    -- `bytes[length-1]`, an `int` index: -1 for the empty slice
    match (if length = 0 then none else bytes[length - 1]?) with
    | none => .panic .indexOutOfRange
    | some last =>
      if last.val &&& 0x0f ≠ 0 then
        .err .lastNibbleMustBeZero
      else
        match sliceToArray32 bytes with
        | .ok bytesArray => .ok { numNibbles := length * 2 - 1, bytes := bytesArray }
        | .err e => .err e
        | .panic p => .panic p

/-! ## node.go -/

/-- Go `type NodeKind byte`. -/
abbrev NodeKind := Byte

/-- Go `Leaf = NodeKind(0)`. -/
def Leaf : NodeKind := 0

/-- Go `Internal = NodeKind(1)`. -/
def Internal : NodeKind := 1

/-- Go `Null = NodeKind(2)`. -/
def Null : NodeKind := 2

/-- Go `type Version uint64`. -/
abbrev Version := Nat

/-- The number of values of a 64-bit unsigned integer. -/
abbrev uint64Size : Nat := 2 ^ 64

/-- Go `NullNode.Kind`. -/
def NullNode.Kind : NodeKind := Null

/-- Go `NullNode.Hash`: the error of `createLiteralHash` is dropped and the
returned pointer, nil when there was an error, is dereferenced. -/
def NullNode.Hash : Outcome HashValue :=
  match createLiteralHash "SPARSE_MERKLE_PLACEHOLDER_HASH" with
  | .ok v => .ok v
  | .err _ => .panic .nilDereference
  | .panic p => .panic p

/-- Go `NullNode.IsLeave`. -/
def NullNode.IsLeave : Bool := false

/-- A non-nil value of the interface type `Node[K]`: either `&NullNode{}`, the
only implementation the package has, or any other implementation, given by
what its three methods `Kind`, `Hash` and `IsLeave` return. -/
inductive Node where
  | nullNode
  | other (kind : NodeKind) (hash : HashValue) (isLeave : Bool)
deriving DecidableEq

/-- The method `Kind` of a node. -/
def Node.Kind : Node → NodeKind
  | .nullNode => NullNode.Kind
  | .other kind _ _ => kind

/-- The method `Hash` of a node. -/
def Node.Hash : Node → Outcome HashValue
  | .nullNode => NullNode.Hash
  | .other _ hash _ => .ok hash

/-- The method `IsLeave` of a node. -/
def Node.IsLeave : Node → Bool
  | .nullNode => NullNode.IsLeave
  | .other _ _ isLeave => isLeave

/-- Go `type NodeKey struct`: `version Version`, `nibblePath NibblePath`. -/
structure NodeKey where
  version : Version
  nibblePath : NibblePath
deriving DecidableEq

/-- Go `NewNodeKey`. -/
def NewNodeKey (version : Version) (nibblePath : NibblePath) : NodeKey :=
  { version := version, nibblePath := nibblePath }

/-- Go `NewEmptyPathNodeKey`. -/
def NewEmptyPathNodeKey (version : Version) : Outcome NodeKey :=
  match newEvenNibblePath (makeBytes 0) with
  | .err _ => .err .newNodePathFailed
  | .panic p => .panic p
  | .ok np => .ok { version := version, nibblePath := np }

/-! ## Go maps -/

/-- A Go `map[κ]ν`, as an association list; the binding of a key is the first
pair that carries it. -/
abbrev GoMap (κ ν : Type) := List (κ × ν)

namespace GoMap

variable {κ ν : Type} [DecidableEq κ]

/-- The read `v, ok := m[k]`. -/
def lookup (m : GoMap κ ν) (k : κ) : Option ν :=
  match m with
  | [] => none
  | (k', v) :: rest => if k' = k then some v else lookup rest k

/-- The keys of the map, each once. -/
def keys (m : GoMap κ ν) : List κ := (m.map Prod.fst).dedup

/-- Go `len(m)`. -/
def len (m : GoMap κ ν) : Nat := (keys m).length

/-- Go `delete(m, k)`. -/
def delete (m : GoMap κ ν) (k : κ) : GoMap κ ν := m.filter fun kv => kv.1 ≠ k

/-- The write `m[k] = v`. -/
def store (m : GoMap κ ν) (k : κ) (v : ν) : GoMap κ ν := (k, v) :: delete m k

/-- Go `maps.Copy(dst, src)`: every binding of `src` is written to `dst`. -/
def copy (dst src : GoMap κ ν) : GoMap κ ν :=
  src.foldr (fun kv acc => store acc kv.1 kv.2) dst

/-- Go `lo.MapKeys(m, iteratee)`: a new map with the binding `iteratee(v, k) ↦ v`
for every binding `k ↦ v` of `m`. -/
def mapKeys {ρ : Type} [DecidableEq ρ] (m : GoMap κ ν) (iteratee : ν → κ → ρ) : GoMap ρ ν :=
  m.foldr (fun kv acc => store acc (iteratee kv.2 kv.1) kv.2) []

end GoMap

/-! ## tree.go: the types the cache uses -/

/-- Go `type StaleNodeIndex struct`. -/
structure StaleNodeIndex where
  StaleSinceVersion : Version
  NodeKey : NodeKey
deriving DecidableEq

/-- Go `type NodeStats struct`. -/
structure NodeStats where
  NewNodes : Nat
  NewLeaves : Nat
  StaleNodes : Nat
  StaleLeaves : Nat
deriving DecidableEq, Repr

/-- Go `type NodeBatch[K Key] map[NodeKey]Node[K]`. -/
abbrev NodeBatch := GoMap NodeKey Node

/-- Go `type StaleNodeIndexBatch map[StaleNodeIndex]byte`. -/
abbrev StaleNodeIndexBatch := GoMap StaleNodeIndex Byte

/-- Go `type TreeUpdateBatch[K Key] struct`. -/
structure TreeUpdateBatch where
  NodeBatch : NodeBatch
  StaleNodeIndexBatch : StaleNodeIndexBatch
  NodeStats : List NodeStats
deriving DecidableEq

/-- Go `type TreeReader[K Key] interface`, seen through its method `GetNode`:
the node stored under a key, or an error. -/
abbrev TreeReader := NodeKey → Outcome Node

/-! ## tree_cache.go -/

/-- Go `const PreGenesisVersion = math.MaxUint64`. -/
def PreGenesisVersion : Version := 2 ^ 64 - 1

/-- Go `type frozenTreeCache[K Key] struct`. -/
structure frozenTreeCache where
  nodeCache : NodeBatch
  staleNodeIndexCache : StaleNodeIndexBatch
  nodeStats : List NodeStats
  rootHashes : List HashValue
deriving DecidableEq

/-- Go `newFrozenTreeCache`. -/
def newFrozenTreeCache : frozenTreeCache :=
  { nodeCache := [], staleNodeIndexCache := [], nodeStats := [], rootHashes := [] }

/-- Go `type TreeCache[K Key, R TreeReader[K]] struct`. -/
structure TreeCache where
  rootNodeKey : NodeKey
  nextVersion : Version
  nodeCache : GoMap NodeKey Node
  numNewLeaves : Nat
  staleNodeIndexCache : GoMap NodeKey Byte
  numStaleLeaves : Nat
  frozenTreeCache : frozenTreeCache
  reader : TreeReader

/-- Go `NewTreeCache`; `persistedVersion` is `none` for a nil pointer. -/
def NewTreeCache (reader : TreeReader) (nextVersion : Version)
    (persistedVersion : Option Version) : Outcome TreeCache :=
  let finish (rootNodeKey : NodeKey) (nodeCache : GoMap NodeKey Node) : Outcome TreeCache :=
    .ok {
      rootNodeKey := rootNodeKey
      nodeCache := nodeCache
      nextVersion := nextVersion
      numNewLeaves := 0
      staleNodeIndexCache := []
      numStaleLeaves := 0
      frozenTreeCache := newFrozenTreeCache
      reader := reader }
  match persistedVersion with
  | some version =>
    let construct : Outcome TreeCache :=
      match NewEmptyPathNodeKey version with
      | .err _ => .err .newTreeCacheFailed
      | .panic p => .panic p
      | .ok rootNodeKey => finish rootNodeKey []
    if version = PreGenesisVersion then
      if nextVersion = PreGenesisVersion then
        .err .invalidNextVersion
      else construct
    else
      if nextVersion ≤ version then
        .err .invalidNextVersion
      else construct
  | none =>
    match NewEmptyPathNodeKey 0 with
    | .err _ => .err .newTreeCacheFailed
    | .panic p => .panic p
    | .ok rootNodeKey => finish rootNodeKey (GoMap.store [] rootNodeKey .nullNode)

/-- Go `TreeCache.GetNode`: the state after the call and the result. -/
def TreeCache.GetNode (tc : TreeCache) (nodeKey : NodeKey) : TreeCache × Outcome Node :=
  match GoMap.lookup tc.nodeCache nodeKey with
  | some v => (tc, .ok v)
  | none =>
    match GoMap.lookup tc.frozenTreeCache.nodeCache nodeKey with
    | some v => (tc, .ok v)
    | none =>
      match tc.reader nodeKey with
      | .ok v => (tc, .ok v)
      | .err _ => (tc, .err .getNodeFailed)
      | .panic p => (tc, .panic p)

/-- Go `TreeCache.GetRootNodeKey`. -/
def TreeCache.GetRootNodeKey (tc : TreeCache) : NodeKey := tc.rootNodeKey

/-- Go `TreeCache.SetRootNodeKey`. -/
def TreeCache.SetRootNodeKey (tc : TreeCache) (rootNodeKey : NodeKey) : TreeCache :=
  { tc with rootNodeKey := rootNodeKey }

/-- Go `TreeCache.PutNode`: the state after the call and the returned error
(`ok ()` for nil). -/
def TreeCache.PutNode (tc : TreeCache) (nodeKey : NodeKey) (newNode : Node) :
    TreeCache × Outcome Unit :=
  match GoMap.lookup tc.nodeCache nodeKey with
  | some _ => (tc, .err .nodeAlreadyExists)
  | none =>
    let tc := if newNode.IsLeave then
        { tc with numNewLeaves := (tc.numNewLeaves + 1) % uint64Size }
      else tc
    ({ tc with nodeCache := GoMap.store tc.nodeCache nodeKey newNode }, .ok ())

/-- Go `TreeCache.RemoveNode`: the state after the call (at the panic, when it
panics) and whether it returned. -/
def TreeCache.RemoveNode (tc : TreeCache) (oldNodeKey : NodeKey) (isLeaf : Bool) :
    TreeCache × Outcome Unit :=
  match GoMap.lookup tc.nodeCache oldNodeKey with
  | none =>
    match GoMap.lookup tc.staleNodeIndexCache oldNodeKey with
    | some _ => (tc, .panic .staleTwice)
    | none =>
      let tc := { tc with
        staleNodeIndexCache := GoMap.store tc.staleNodeIndexCache oldNodeKey 48 }
      let tc := if isLeaf then
          { tc with numStaleLeaves := (tc.numStaleLeaves + 1) % uint64Size }
        else tc
      (tc, .ok ())
  | some _ =>
    ({ tc with
        nodeCache := GoMap.delete tc.nodeCache oldNodeKey
        numNewLeaves := (tc.numNewLeaves + uint64Size - 1) % uint64Size }, .ok ())

/-- Go `TreeCache.Freeze`: the state after the call (at the panic, when it
panics) and whether it returned. -/
def TreeCache.Freeze (tc : TreeCache) : TreeCache × Outcome Unit :=
  let rootNodeKey := tc.GetRootNodeKey
  match tc.GetNode rootNodeKey with
  | (tc, .err _) => (tc, .panic .rootMustExist)
  | (tc, .panic p) => (tc, .panic p)
  | (tc, .ok rootNode) =>
    match rootNode.Hash with
    | .err e => (tc, .err e)
    | .panic p => (tc, .panic p)
    | .ok rootHash =>
      let frozen := { tc.frozenTreeCache with
        rootHashes := tc.frozenTreeCache.rootHashes ++ [rootHash] }
      let nodeStats : NodeStats := {
        NewNodes := GoMap.len tc.nodeCache
        NewLeaves := tc.numNewLeaves
        StaleNodes := GoMap.len tc.staleNodeIndexCache
        StaleLeaves := tc.numStaleLeaves }
      let frozen := { frozen with nodeStats := frozen.nodeStats ++ [nodeStats] }
      let frozen := { frozen with nodeCache := GoMap.copy frozen.nodeCache tc.nodeCache }
      let staleSinceVersion := tc.nextVersion
      let staleNodeIndexBatch : StaleNodeIndexBatch :=
        GoMap.mapKeys tc.staleNodeIndexCache fun _ k =>
          { StaleSinceVersion := staleSinceVersion, NodeKey := k }
      let frozen := { frozen with
        staleNodeIndexCache := GoMap.copy frozen.staleNodeIndexCache staleNodeIndexBatch }
      ({ tc with
          frozenTreeCache := frozen
          numStaleLeaves := 0
          numNewLeaves := 0
          nextVersion := (tc.nextVersion + 1) % uint64Size }, .ok ())

/-- Go `From`. -/
def From (treeCache : TreeCache) : List HashValue × TreeUpdateBatch :=
  (treeCache.frozenTreeCache.rootHashes,
   { NodeBatch := treeCache.frozenTreeCache.nodeCache
     StaleNodeIndexBatch := treeCache.frozenTreeCache.staleNodeIndexCache
     NodeStats := treeCache.frozenTreeCache.nodeStats })

/-! ## tree.go -/

/-- Go `type Pair[K Key] struct`. -/
structure Pair (K : Type) where
  valueHash : HashValue
  key : K
deriving DecidableEq

/-- Go `type ValueSet[K Key] struct`; `pair` is `none` for a nil pointer. -/
structure ValueSet (K : Type) where
  keyHash : HashValue
  pair : Option (Pair K)
deriving DecidableEq

/-- Go `bytes.Compare`: the lexicographic comparison of two byte slices, with
result -1, 0 or +1. -/
def bytesCompare : List Byte → List Byte → Int
  | [], [] => 0
  | [], _ :: _ => -1
  | _ :: _, [] => 1
  | a :: as, b :: bs =>
    if a < b then -1 else if b < a then 1 else bytesCompare as bs

/-- Go `bytes.Equal`. -/
def bytesEqual (a b : List Byte) : Bool := decide (a = b)

/-- The `less` function handed to `sort.SliceStable`:
`bytes.Compare(valueSet[i].keyHash.hash[:], valueSet[j].keyHash.hash[:]) < 0`. -/
def keyHashLess {K : Type} (a b : ValueSet K) : Bool :=
  decide (bytesCompare a.keyHash.hash.val b.keyHash.hash.val < 0)

/-- Insertion of `x` into a sorted list in front of the first element that is
not less than `x`: elements equal to `x` stay behind it. -/
def insertStable {α : Type} (less : α → α → Bool) (x : α) : List α → List α
  | [] => [x]
  | y :: ys => if less y x then y :: insertStable less x ys else x :: y :: ys

/-- The standard library's `sort.SliceStable(x, less)`, through its contract:
the elements of `x` sorted by `less`, equal elements in their original order.
It is computed here by insertion from the right, every element going in front
of the equal elements that followed it. -/
def sliceStable {α : Type} (less : α → α → Bool) : List α → List α
  | [] => []
  | x :: xs => insertStable less x (sliceStable less xs)

/-- One iteration, at index `curr`, of the compaction loop of
`BatchPutValueSets`, on the pair `(valueSet, prev)`:
`if !bytes.Equal(valueSet[curr-1].keyHash.hash[:], valueSet[curr].keyHash.hash[:])`
then `valueSet[prev] = valueSet[curr]; prev++`. -/
def dedupStep {K : Type} (st : Outcome (List (ValueSet K) × Nat)) (curr : Nat) :
    Outcome (List (ValueSet K) × Nat) :=
  match st with
  | .ok (valueSet, prev) =>
    match (if curr = 0 then none else valueSet[curr - 1]?), valueSet[curr]? with
    | some before, some current =>
      if !bytesEqual before.keyHash.hash.val current.keyHash.hash.val then
        if prev < valueSet.length then
          .ok (valueSet.set prev current, prev + 1)
        else .panic .indexOutOfRange
      else .ok (valueSet, prev)
    | _, _ => .panic .indexOutOfRange
  | .err e => .err e
  | .panic p => .panic p

/-- The compaction loop `prev := 1; for curr := 1; curr < valueSetLength; curr++`:
the body runs for `curr = 1, ..., valueSetLength - 1` in turn. -/
def dedupLoop {K : Type} (valueSetLength : Nat) (valueSet : List (ValueSet K)) :
    Outcome (List (ValueSet K) × Nat) :=
  (List.range' 1 (valueSetLength - 1)).foldl dedupStep (.ok (valueSet, 1))

/-- The sort-and-dedup step of `BatchPutValueSets` (the stable sort, the
compaction loop and the slice `valueSet[:prev]`): the value of
`dedupedAndSortedKVs`. The engine runs it on non-empty value sets only. -/
def dedupedAndSortedKVs {K : Type} (valueSet : List (ValueSet K)) :
    Outcome (List (ValueSet K)) :=
  let valueSetLength := valueSet.length
  let valueSet := sliceStable keyHashLess valueSet
  match dedupLoop valueSetLength valueSet with
  | .ok (valueSet, prev) =>
    if prev ≤ valueSet.length then .ok (valueSet.take prev) else .panic .indexOutOfRange
  | .err e => .err e
  | .panic p => .panic p

/-- Go `map[NibblePath]HashValue`, `none` for the nil map. -/
abbrev HashCache := Option (GoMap NibblePath HashValue)

/-- Go `JellyfishMerkleTree.getHash`. -/
def getHash (nodeKey : NodeKey) (node : Node) (hashCache : HashCache) : Outcome HashValue :=
  match hashCache with
  | none => node.Hash
  | some cache =>
    match GoMap.lookup cache nodeKey.nibblePath with
    | some v => .ok v
    | none => .panic .hashCacheMiss

/-- What `batchInsertAt` returns, `(*NodeKey, Node[K], error)`, with the cache
after the call. -/
structure InsertResult where
  treeCache : TreeCache
  newNodeKey : Option NodeKey
  newNode : Option Node
  err : Option GoError

/-- Go `JellyfishMerkleTree.batchInsertAt`: the body is `return nil, nil, nil`. -/
def batchInsertAt {K : Type} (_nodeKey : NodeKey) (_version : Version)
    (_kvs : List (ValueSet K)) (_depth : Nat) (_hashCache : HashCache)
    (treeCache : TreeCache) : InsertResult :=
  { treeCache := treeCache, newNodeKey := none, newNode := none, err := none }

/-- The type of `batchInsertAt`: from the node key, the version, the sorted
entries, the depth, the hash cache and the tree cache to its results. -/
abbrev InsertFn (K : Type) :=
  NodeKey → Version → List (ValueSet K) → Nat → HashCache → TreeCache → InsertResult

/-- The body of the loop of `BatchPutValueSets` for the value set at index
`idx`, the function called as `jmt.batchInsertAt` being the parameter `insert`;
`treeCache` is `none` for the nil pointer left by a failed `NewTreeCache`. -/
def batchPutOneWith {K : Type} (insert : InsertFn K) (firstVersion : Version)
    (treeCache : Option TreeCache) (idx : Nat) (valueSet : List (ValueSet K))
    (hashSet : HashCache) : Outcome (Option TreeCache) :=
  if valueSet.length < 1 then
    match treeCache with
    | none => .panic .nilDereference
    | some tc =>
      match tc.Freeze with
      | (tc, .ok ()) => .ok (some tc)
      | (_, .err e) => .err e
      | (_, .panic p) => .panic p
  else
    let version := (firstVersion + idx) % uint64Size
    match dedupedAndSortedKVs valueSet with
    | .err e => .err e
    | .panic p => .panic p
    | .ok kvs =>
      match treeCache with
      | none => .panic .nilDereference
      | some tc =>
        let rootNodeKey := tc.GetRootNodeKey
        let r := insert rootNodeKey version kvs 0 hashSet tc
        match r.err with
        | some _ => .err .batchPutFailed
        | none =>
          match r.newNodeKey with
          | none => .panic .nilDereference
          | some newRootNodeKey =>
            let tc := r.treeCache.SetRootNodeKey newRootNodeKey
            match tc.Freeze with
            | (tc, .ok ()) => .ok (some tc)
            | (_, .err e) => .err e
            | (_, .panic p) => .panic p

/-- The loop `for idx, item := range lo.Zip2(valueSets, hastSets)` of
`BatchPutValueSets`, from index `idx` on, with `insert` for `jmt.batchInsertAt`. -/
def batchPutLoopWith {K : Type} (insert : InsertFn K) (firstVersion : Version) :
    Option TreeCache → Nat → List (List (ValueSet K) × HashCache) → Outcome (Option TreeCache)
  | treeCache, _, [] => .ok treeCache
  | treeCache, idx, (valueSet, hashSet) :: rest =>
    match batchPutOneWith insert firstVersion treeCache idx valueSet hashSet with
    | .ok treeCache => batchPutLoopWith insert firstVersion treeCache (idx + 1) rest
    | .err e => .err e
    | .panic p => .panic p

/-- The body of the loop of `BatchPutValueSets` for the value set at index
`idx`, with the `batchInsertAt` of the source. -/
def batchPutOne {K : Type} (firstVersion : Version) (treeCache : Option TreeCache)
    (idx : Nat) (valueSet : List (ValueSet K)) (hashSet : HashCache) :
    Outcome (Option TreeCache) :=
  batchPutOneWith batchInsertAt firstVersion treeCache idx valueSet hashSet

/-- The loop of `BatchPutValueSets`, from index `idx` on, with the
`batchInsertAt` of the source. -/
def batchPutLoop {K : Type} (firstVersion : Version) (treeCache : Option TreeCache)
    (idx : Nat) (items : List (List (ValueSet K) × HashCache)) : Outcome (Option TreeCache) :=
  batchPutLoopWith batchInsertAt firstVersion treeCache idx items

/-- Go `JellyfishMerkleTree.BatchPutValueSets`; `nodeHashes` and
`persistedVersion` are `none` for nil. The error of `NewTreeCache` is not
examined: it leaves a nil `treeCache`. -/
def BatchPutValueSets {K : Type} (reader : TreeReader) (valueSets : List (List (ValueSet K)))
    (nodeHashes : Option (List HashCache)) (persistedVersion : Option Version)
    (firstVersion : Version) : Outcome (List HashValue × TreeUpdateBatch) :=
  match NewTreeCache reader firstVersion persistedVersion with
  | .panic p => .panic p
  | created =>
    let treeCache : Option TreeCache :=
      match created with
      | .ok tc => some tc
      | _ => none
    let hastSets : List HashCache :=
      match nodeHashes with
      | some nodeHashes => nodeHashes
      | none => List.replicate valueSets.length none
    if valueSets.length ≠ hastSets.length then
      .panic .lengthMismatch
    else
      match batchPutLoop firstVersion treeCache 0 (valueSets.zip hastSets) with
      | .err e => .err e
      | .panic p => .panic p
      | .ok none => .panic .nilDereference
      | .ok (some treeCache) => .ok (From treeCache)

/-! ## Sequences of calls on a cache -/

/-- A call of one of the methods of the cache. -/
inductive CacheOp where
  | getNode (nodeKey : NodeKey)
  | putNode (nodeKey : NodeKey) (newNode : Node)
  | removeNode (oldNodeKey : NodeKey) (isLeaf : Bool)
  | setRootNodeKey (rootNodeKey : NodeKey)
  | freeze

/-- The call is a `Freeze`. -/
def CacheOp.isFreeze : CacheOp → Bool
  | .freeze => true
  | _ => false

/-- The state after a call and whether the call returned (with a value or an
error) or panicked. -/
def applyOp (tc : TreeCache) : CacheOp → TreeCache × Outcome Unit
  | .getNode nodeKey =>
    match tc.GetNode nodeKey with
    | (tc, .ok _) => (tc, .ok ())
    | (tc, .err e) => (tc, .err e)
    | (tc, .panic p) => (tc, .panic p)
  | .putNode nodeKey newNode => tc.PutNode nodeKey newNode
  | .removeNode oldNodeKey isLeaf => tc.RemoveNode oldNodeKey isLeaf
  | .setRootNodeKey rootNodeKey => (tc.SetRootNodeKey rootNodeKey, .ok ())
  | .freeze => tc.Freeze

/-- The calls of a list made one after the other on a cache, up to the first
one that panics: the state reached and the number of `Freeze` calls that
returned, added to `freezes`. -/
def runOps (tc : TreeCache) (freezes : Nat) : List CacheOp → TreeCache × Nat
  | [] => (tc, freezes)
  | op :: rest =>
    match applyOp tc op with
    | (tc, .panic _) => (tc, freezes)
    | (tc, _) => runOps tc (if op.isFreeze then freezes + 1 else freezes) rest

/-- The cache after `n` calls of `Freeze` in a row. -/
def freezeTimes : Nat → TreeCache → TreeCache
  | 0, tc => tc
  | n + 1, tc => freezeTimes n tc.Freeze.1

/-! ## The compaction loop as a function on lists -/

/-- The entries of a list that differ in key hash from the entry right in front
of them, `before` being the entry in front of the list. -/
def keepNew {K : Type} (before : ValueSet K) : List (ValueSet K) → List (ValueSet K)
  | [] => []
  | current :: rest =>
    if !bytesEqual before.keyHash.hash.val current.keyHash.hash.val then
      current :: keepNew current rest
    else keepNew current rest

/-- The first entry of every run of consecutive entries with one key hash. -/
def firstOfRuns {K : Type} : List (ValueSet K) → List (ValueSet K)
  | [] => []
  | first :: rest => first :: keepNew first rest

/-- The order of key hashes: `bytes.Compare` of the two is negative. -/
def keyHashLt {K : Type} (a b : ValueSet K) : Prop :=
  bytesCompare a.keyHash.hash.val b.keyHash.hash.val < 0

/-- The order of key hashes: `bytes.Compare` of the two is not positive. -/
def keyHashLe {K : Type} (a b : ValueSet K) : Prop :=
  bytesCompare a.keyHash.hash.val b.keyHash.hash.val ≤ 0

/-! ## Concrete inputs used by the closed statements -/

/-- A reader with no node: every `GetNode` is an error. -/
def emptyReader : TreeReader := fun _ => .err .readerFailure

/-- The array of 32 zero bytes. -/
def zeroArray32 : ByteArray32 := ⟨List.replicate 32 0, by decide⟩

/-- The nibble path of no nibbles. -/
def emptyNibblePath : NibblePath := { numNibbles := 0, bytes := zeroArray32 }

/-- The node key of the empty path at a version. -/
def rootKeyAt (version : Version) : NodeKey :=
  { version := version, nibblePath := emptyNibblePath }

/-- A hash value of 32 equal bytes. -/
def constHash (b : Byte) : HashValue := { hash := ⟨List.replicate 32 b, by simp⟩ }

/-- A value set entry for the key hash of 32 bytes `keyByte`, telling entries of
one key hash apart by the key `tag` and the value hash of 32 bytes `valueByte`. -/
def entry (keyByte valueByte : Byte) (tag : Nat) : ValueSet Nat :=
  { keyHash := constHash keyByte, pair := some { valueHash := constHash valueByte, key := tag } }

/-- A cache as `NewTreeCache` means to build it for a fresh tree: the root key
of version 0 bound to a `NullNode`, everything else empty. -/
def freshCache : TreeCache :=
  { rootNodeKey := rootKeyAt 0
    nextVersion := 0
    nodeCache := [(rootKeyAt 0, .nullNode)]
    numNewLeaves := 0
    staleNodeIndexCache := []
    numStaleLeaves := 0
    frozenTreeCache := newFrozenTreeCache
    reader := emptyReader }

/-- Thirty-two bytes `0x10`: a slice both nibble path constructors accept. -/
def bytes32 : List Byte := List.replicate 32 0x10

/-! ## Lemmas: slices, literal hashes, nibble paths -/

theorem sliceToArray32_short (s : List Byte) (h : s.length < HashValueLength) :
    sliceToArray32 s = .panic .sliceToArrayTooShort := by
  unfold sliceToArray32
  rw [dif_neg (by omega)]

theorem sliceToArray32_val (s : List Byte) (h : HashValueLength ≤ s.length) :
    ∃ a, sliceToArray32 s = .ok a ∧ a.val = s.take HashValueLength := by
  unfold sliceToArray32
  rw [dif_pos h]
  exact ⟨_, rfl, rfl⟩

theorem NewEmptyPathNodeKey_panics (version : Version) :
    NewEmptyPathNodeKey version = .panic .sliceToArrayTooShort := by
  rfl

/-! ## Lemmas: Go maps -/

theorem GoMap.delete_cons {κ ν : Type} [DecidableEq κ] (kv : κ × ν) (rest : GoMap κ ν) (k : κ) :
    GoMap.delete (kv :: rest) k
      = if kv.1 = k then GoMap.delete rest k else kv :: GoMap.delete rest k := by
  by_cases h : kv.1 = k <;> simp [GoMap.delete, List.filter_cons, h]

theorem GoMap.lookup_cons {κ ν : Type} [DecidableEq κ] (kv : κ × ν) (rest : GoMap κ ν) (k : κ) :
    GoMap.lookup (kv :: rest) k = if kv.1 = k then some kv.2 else GoMap.lookup rest k := by
  rfl

theorem GoMap.lookup_delete_self {κ ν : Type} [DecidableEq κ] (m : GoMap κ ν) (k : κ) :
    GoMap.lookup (GoMap.delete m k) k = none := by
  induction m with
  | nil => rfl
  | cons kv rest ih =>
    rw [GoMap.delete_cons]
    by_cases h : kv.1 = k
    · rw [if_pos h]; exact ih
    · rw [if_neg h, GoMap.lookup_cons, if_neg h]; exact ih

theorem GoMap.lookup_delete_ne {κ ν : Type} [DecidableEq κ] (m : GoMap κ ν) (k k' : κ)
    (hne : k' ≠ k) : GoMap.lookup (GoMap.delete m k) k' = GoMap.lookup m k' := by
  induction m with
  | nil => rfl
  | cons kv rest ih =>
    rw [GoMap.delete_cons, GoMap.lookup_cons]
    by_cases h : kv.1 = k
    · have h' : kv.1 ≠ k' := fun e => hne (e.symm.trans h)
      rw [if_pos h, if_neg h']; exact ih
    · rw [if_neg h, GoMap.lookup_cons]
      by_cases h' : kv.1 = k'
      · rw [if_pos h', if_pos h']
      · rw [if_neg h', if_neg h']; exact ih

theorem GoMap.lookup_store_self {κ ν : Type} [DecidableEq κ] (m : GoMap κ ν) (k : κ) (v : ν) :
    GoMap.lookup (GoMap.store m k v) k = some v := by
  simp [GoMap.store, GoMap.lookup]

theorem GoMap.lookup_store_ne {κ ν : Type} [DecidableEq κ] (m : GoMap κ ν) (k k' : κ) (v : ν)
    (hne : k' ≠ k) : GoMap.lookup (GoMap.store m k v) k' = GoMap.lookup m k' := by
  have h : ¬ k = k' := fun e => hne e.symm
  unfold GoMap.store
  rw [GoMap.lookup_cons, if_neg h]
  exact GoMap.lookup_delete_ne m k k' hne

theorem GoMap.delete_of_lookup_none {κ ν : Type} [DecidableEq κ] (m : GoMap κ ν) (k : κ)
    (h : GoMap.lookup m k = none) : GoMap.delete m k = m := by
  induction m with
  | nil => rfl
  | cons kv rest ih =>
    rw [GoMap.lookup_cons] at h
    by_cases hk : kv.1 = k
    · rw [if_pos hk] at h; cases h
    · rw [if_neg hk] at h
      rw [GoMap.delete_cons, if_neg hk, ih h]

/-! ## Lemmas: byte comparison -/

theorem bytesCompare_swap (a b : List Byte) : bytesCompare b a = - bytesCompare a b := by
  induction a generalizing b with
  | nil => cases b <;> simp [bytesCompare]
  | cons x xs ih =>
    cases b with
    | nil => simp [bytesCompare]
    | cons y ys =>
      simp only [bytesCompare]
      rcases lt_trichotomy x y with h | h | h
      · have h' : ¬ y < x := not_lt.mpr (le_of_lt h)
        simp [h, h']
      · subst h; simp [ih]
      · have h' : ¬ x < y := not_lt.mpr (le_of_lt h)
        simp [h, h']

theorem bytesCompare_eq_zero (a b : List Byte) : bytesCompare a b = 0 ↔ a = b := by
  induction a generalizing b with
  | nil => cases b <;> simp [bytesCompare]
  | cons x xs ih =>
    cases b with
    | nil => simp [bytesCompare]
    | cons y ys =>
      simp only [bytesCompare]
      rcases lt_trichotomy x y with h | h | h
      · have h' : x ≠ y := ne_of_lt h
        simp [h, h']
      · subst h; simp [ih]
      · have h' : ¬ x < y := not_lt.mpr (le_of_lt h)
        have h'' : x ≠ y := ne_of_gt h
        simp [h, h', h'']

theorem bytesCompare_trans (a b c : List Byte)
    (hab : bytesCompare a b ≤ 0) (hbc : bytesCompare b c ≤ 0) :
    bytesCompare a c ≤ 0 ∧
      ((bytesCompare a b < 0 ∨ bytesCompare b c < 0) → bytesCompare a c < 0) := by
  induction a generalizing b c with
  | nil =>
    cases b <;> cases c <;> simp_all [bytesCompare]
  | cons x xs ih =>
    cases b with
    | nil => simp [bytesCompare] at hab
    | cons y ys =>
      cases c with
      | nil => simp [bytesCompare] at hbc
      | cons z zs =>
        simp only [bytesCompare] at hab hbc ⊢
        rcases lt_trichotomy x y with h | h | h
        · have hyx : ¬ y < x := not_lt.mpr (le_of_lt h)
          rcases lt_trichotomy y z with g | g | g
          · have hxz : x < z := lt_trans h g
            simp [hxz]
          · subst g; simp [h]
          · have hyz : ¬ y < z := not_lt.mpr (le_of_lt g)
            simp [hyz, g] at hbc
        · subst h
          rcases lt_trichotomy x z with g | g | g
          · simp [g]
          · subst g
            simp only [lt_irrefl, if_false] at hab hbc ⊢
            exact ih ys zs hab hbc
          · have hxz : ¬ x < z := not_lt.mpr (le_of_lt g)
            simp [hxz, g] at hbc
        · have hxy : ¬ x < y := not_lt.mpr (le_of_lt h)
          simp [hxy, h] at hab

/-! ## Lemmas: the stable sort -/

theorem insertStable_perm {α : Type} (less : α → α → Bool) (x : α) (l : List α) :
    (insertStable less x l).Perm (x :: l) := by
  induction l with
  | nil => exact List.Perm.refl _
  | cons y ys ih =>
    unfold insertStable
    by_cases h : less y x = true
    · rw [if_pos h]
      exact (List.Perm.cons y ih).trans (List.Perm.swap x y ys)
    · rw [if_neg h]

theorem sliceStable_perm {α : Type} (less : α → α → Bool) (l : List α) :
    (sliceStable less l).Perm l := by
  induction l with
  | nil => exact List.Perm.refl _
  | cons x xs ih =>
    unfold sliceStable
    exact (insertStable_perm less x _).trans (List.Perm.cons x ih)

theorem insertStable_filter {α : Type} (less : α → α → Bool) (p : α → Bool) (x : α)
    (hp : ∀ y, p y = true → p x = true → less y x = false) (l : List α) :
    (insertStable less x l).filter p = (x :: l).filter p := by
  induction l with
  | nil => rfl
  | cons y ys ih =>
    unfold insertStable
    by_cases h : less y x = true
    · rw [if_pos h]
      by_cases hy : p y = true
      · have hx : ¬ p x = true := fun hx => by
          have := hp y hy hx
          rw [h] at this
          cases this
        rw [List.filter_cons_of_pos hy, ih, List.filter_cons_of_neg hx, List.filter_cons_of_neg hx,
          List.filter_cons_of_pos hy]
      · rw [List.filter_cons_of_neg hy, ih]
        by_cases hx : p x = true
        · rw [List.filter_cons_of_pos hx, List.filter_cons_of_pos hx, List.filter_cons_of_neg hy]
        · rw [List.filter_cons_of_neg hx, List.filter_cons_of_neg hx, List.filter_cons_of_neg hy]
    · rw [if_neg h]

theorem sliceStable_filter {α : Type} (less : α → α → Bool) (p : α → Bool)
    (hp : ∀ x y, p y = true → p x = true → less y x = false) (l : List α) :
    (sliceStable less l).filter p = l.filter p := by
  induction l with
  | nil => rfl
  | cons x xs ih =>
    unfold sliceStable
    rw [insertStable_filter less p x (hp x)]
    by_cases hx : p x = true
    · rw [List.filter_cons_of_pos hx, List.filter_cons_of_pos hx, ih]
    · rw [List.filter_cons_of_neg hx, List.filter_cons_of_neg hx, ih]

theorem insertStable_sorted {α : Type} (less : α → α → Bool)
    (hasymm : ∀ a b, less a b = true → less b a = false)
    (htrans : ∀ a b c, less b a = false → less c b = false → less c a = false)
    (x : α) (l : List α) (hl : l.Pairwise fun a b => less b a = false) :
    (insertStable less x l).Pairwise fun a b => less b a = false := by
  induction l with
  | nil => exact List.pairwise_singleton _ _
  | cons y ys ih =>
    rw [List.pairwise_cons] at hl
    unfold insertStable
    by_cases h : less y x = true
    · rw [if_pos h, List.pairwise_cons]
      refine ⟨?_, ih hl.2⟩
      intro z hz
      rcases List.mem_cons.mp ((insertStable_perm less x ys).mem_iff.mp hz) with hzx | hzy
      · rw [hzx]; exact hasymm y x h
      · exact hl.1 z hzy
    · rw [if_neg h, List.pairwise_cons]
      have hxy : less y x = false := by
        cases hb : less y x with
        | true => exact absurd hb h
        | false => rfl
      refine ⟨?_, List.pairwise_cons.mpr hl⟩
      intro z hz
      rcases List.mem_cons.mp hz with hzy | hzy
      · rw [hzy]; exact hxy
      · exact htrans x y z hxy (hl.1 z hzy)

theorem sliceStable_sorted {α : Type} (less : α → α → Bool)
    (hasymm : ∀ a b, less a b = true → less b a = false)
    (htrans : ∀ a b c, less b a = false → less c b = false → less c a = false)
    (l : List α) : (sliceStable less l).Pairwise fun a b => less b a = false := by
  induction l with
  | nil => exact List.Pairwise.nil
  | cons x xs ih =>
    unfold sliceStable
    exact insertStable_sorted less hasymm htrans x _ ih

/-! ## Lemmas: the order of key hashes -/

theorem keyHash_eq_iff {K : Type} (a b : ValueSet K) :
    a.keyHash.hash.val = b.keyHash.hash.val ↔ a.keyHash = b.keyHash := by
  constructor
  · intro h
    cases ha : a.keyHash with
    | mk ah =>
      cases hb : b.keyHash with
      | mk bh =>
        rw [ha, hb] at h
        exact congrArg HashValue.mk (Subtype.ext h)
  · intro h; rw [h]

theorem keyHashLess_eq_false_iff {K : Type} (a b : ValueSet K) :
    keyHashLess b a = false ↔ keyHashLe a b := by
  unfold keyHashLess keyHashLe
  rw [decide_eq_false_iff_not, bytesCompare_swap a.keyHash.hash.val b.keyHash.hash.val]
  omega

theorem keyHashLess_eq_true_iff {K : Type} (a b : ValueSet K) :
    keyHashLess a b = true ↔ keyHashLt a b := by
  unfold keyHashLess keyHashLt
  exact decide_eq_true_iff

theorem keyHashLess_asymm {K : Type} (a b : ValueSet K) (h : keyHashLess a b = true) :
    keyHashLess b a = false := by
  rw [keyHashLess_eq_false_iff]
  rw [keyHashLess_eq_true_iff] at h
  exact le_of_lt h

theorem keyHashLe_trans {K : Type} (a b c : ValueSet K) (hab : keyHashLe a b)
    (hbc : keyHashLe b c) : keyHashLe a c :=
  (bytesCompare_trans _ _ _ hab hbc).1

theorem keyHashLess_trans {K : Type} (a b c : ValueSet K) (hab : keyHashLess b a = false)
    (hbc : keyHashLess c b = false) : keyHashLess c a = false := by
  rw [keyHashLess_eq_false_iff] at *
  exact keyHashLe_trans a b c hab hbc

theorem keyHashLt_trans {K : Type} (a b c : ValueSet K) (hab : keyHashLt a b)
    (hbc : keyHashLt b c) : keyHashLt a c :=
  (bytesCompare_trans _ _ _ (le_of_lt hab) (le_of_lt hbc)).2 (Or.inl hab)

theorem keyHashLt_of_le_of_ne {K : Type} (a b : ValueSet K) (hab : keyHashLe a b)
    (hne : a.keyHash.hash.val ≠ b.keyHash.hash.val) : keyHashLt a b := by
  unfold keyHashLe at hab
  unfold keyHashLt
  have h0 : bytesCompare a.keyHash.hash.val b.keyHash.hash.val ≠ 0 :=
    fun h => hne ((bytesCompare_eq_zero _ _).mp h)
  omega

theorem keyHashLt_ne {K : Type} (a b : ValueSet K) (hab : keyHashLt a b) :
    a.keyHash ≠ b.keyHash := by
  intro h
  unfold keyHashLt at hab
  rw [h, (bytesCompare_eq_zero _ _).mpr rfl] at hab
  exact absurd hab (by decide)

theorem sliceStable_keyHashLe {K : Type} (l : List (ValueSet K)) :
    (sliceStable keyHashLess l).Pairwise keyHashLe := by
  have h := sliceStable_sorted keyHashLess keyHashLess_asymm keyHashLess_trans l
  exact h.imp fun {a b} hab => (keyHashLess_eq_false_iff a b).mp hab

theorem sliceStable_filter_keyHash {K : Type} (h : HashValue) (l : List (ValueSet K)) :
    (sliceStable keyHashLess l).filter (fun e => decide (e.keyHash = h))
      = l.filter (fun e => decide (e.keyHash = h)) := by
  apply sliceStable_filter
  intro x y hy hx
  have hy' : y.keyHash = h := of_decide_eq_true hy
  have hx' : x.keyHash = h := of_decide_eq_true hx
  unfold keyHashLess
  rw [decide_eq_false_iff_not, hy', hx', (bytesCompare_eq_zero _ _).mpr rfl]
  decide

/-! ## Lemmas: the compaction loop -/

theorem keepNew_length_le {K : Type} (l : List (ValueSet K)) :
    ∀ before : ValueSet K, (keepNew before l).length ≤ l.length := by
  induction l with
  | nil => intro _; exact Nat.le_refl _
  | cons current rest ih =>
    intro before
    unfold keepNew
    split
    · exact Nat.succ_le_succ (ih current)
    · exact Nat.le_succ_of_le (ih current)

theorem dedupFold_spec {K : Type} :
    ∀ (m c : Nat) (vs : List (ValueSet K)) (prev : Nat) (before : ValueSet K),
      0 < c → prev ≤ c → c + m = vs.length → vs[c - 1]? = some before →
      ∃ vs', (List.range' c m).foldl dedupStep (.ok (vs, prev))
          = .ok (vs', prev + (keepNew before (vs.drop c)).length) ∧
        vs'.length = vs.length ∧
        vs'.take (prev + (keepNew before (vs.drop c)).length)
          = vs.take prev ++ keepNew before (vs.drop c) := by
  intro m
  induction m with
  | zero =>
    intro c vs prev before _ _ hlen _
    have hdrop : vs.drop c = [] := List.drop_eq_nil_of_le (by omega)
    refine ⟨vs, ?_, rfl, ?_⟩
    · rw [hdrop]; rfl
    · rw [hdrop]; simp [keepNew]
  | succ m ih =>
    intro c vs prev before hc hprev hlen hbefore
    have hcl : c < vs.length := by omega
    have hc0 : ¬ c = 0 := by omega
    have hcur : vs[c]? = some vs[c] := List.getElem?_eq_getElem hcl
    have hdrop : vs.drop c = vs[c] :: vs.drop (c + 1) := List.drop_eq_getElem_cons hcl
    rw [List.range'_succ, List.foldl_cons, hdrop]
    by_cases hne : (!bytesEqual before.keyHash.hash.val (vs[c]).keyHash.hash.val) = true
    · have hstep : dedupStep (.ok (vs, prev)) c = .ok (vs.set prev vs[c], prev + 1) := by
        simp only [dedupStep, hc0, if_false, hbefore, hcur, hne, if_true]
        rw [if_pos (by omega)]
      have hpl : prev < vs.length := by omega
      have hcur' : (vs.set prev vs[c])[c + 1 - 1]? = some vs[c] := by
        rw [Nat.add_sub_cancel, List.getElem?_set]
        by_cases hpc : prev = c
        · rw [if_pos hpc, if_pos hpl]
        · rw [if_neg hpc]; exact hcur
      obtain ⟨vs', hfold, hlen', htake⟩ := ih (c + 1) (vs.set prev vs[c]) (prev + 1) vs[c]
        (by omega) (by omega) (by rw [List.length_set]; omega) hcur'
      rw [List.drop_set_of_lt _ _ (by omega)] at hfold htake
      have hkeep : keepNew before (vs[c] :: vs.drop (c + 1))
          = vs[c] :: keepNew vs[c] (vs.drop (c + 1)) := by
        rw [keepNew, if_pos hne]
      have htk : (vs.set prev vs[c]).take (prev + 1) = vs.take prev ++ [vs[c]] := by
        rw [List.take_succ, List.getElem?_set, if_pos rfl, if_pos hpl]
        congr 1
        rw [List.set_eq_take_append_cons_drop, if_pos hpl]
        exact List.take_left' (by rw [List.length_take]; omega)
      refine ⟨vs', ?_, ?_, ?_⟩
      · rw [hstep, hfold, hkeep, List.length_cons]
        congr 2
        omega
      · rw [hlen', List.length_set]
      · rw [hkeep, List.length_cons]
        have e : prev + ((keepNew vs[c] (vs.drop (c + 1))).length + 1)
            = prev + 1 + (keepNew vs[c] (vs.drop (c + 1))).length := by omega
        rw [e, htake, htk, List.append_assoc]
        rfl
    · have hstep : dedupStep (.ok (vs, prev)) c = .ok (vs, prev) := by
        simp only [dedupStep, hc0, if_false, hbefore, hcur, hne]
        rfl
      have hcur' : vs[c + 1 - 1]? = some vs[c] := by
        rw [Nat.add_sub_cancel]; exact hcur
      obtain ⟨vs', hfold, hlen', htake⟩ := ih (c + 1) vs prev vs[c]
        (by omega) (by omega) (by omega) hcur'
      have hkeep : keepNew before (vs[c] :: vs.drop (c + 1))
          = keepNew vs[c] (vs.drop (c + 1)) := by
        rw [keepNew, if_neg hne]
      refine ⟨vs', ?_, hlen', ?_⟩
      · rw [hstep, hfold, hkeep]
      · rw [hkeep, htake]

theorem dedupedAndSortedKVs_eq {K : Type} (valueSet : List (ValueSet K)) (hne : valueSet ≠ []) :
    dedupedAndSortedKVs valueSet = .ok (firstOfRuns (sliceStable keyHashLess valueSet)) := by
  have hlen : (sliceStable keyHashLess valueSet).length = valueSet.length :=
    (sliceStable_perm keyHashLess valueSet).length_eq
  have hpos : 0 < valueSet.length := List.length_pos.mpr hne
  cases hs : sliceStable keyHashLess valueSet with
  | nil => rw [hs] at hlen; simp at hlen; omega
  | cons first rest =>
    rw [hs] at hlen
    obtain ⟨vs', hfold, hlen', htake⟩ := dedupFold_spec (valueSet.length - 1) 1 (first :: rest) 1
      first (by omega) (by omega) (by rw [hlen]; omega) (by simp)
    have hk := keepNew_length_le rest first
    simp only [List.drop_succ_cons, List.drop_zero] at hfold htake
    unfold dedupedAndSortedKVs dedupLoop
    simp only [hs, hfold]
    rw [if_pos (by rw [hlen', List.length_cons]; omega), htake]
    rfl

theorem bytesEqual_not_eq_true {K : Type} (a b : ValueSet K) :
    (!bytesEqual a.keyHash.hash.val b.keyHash.hash.val) = true ↔ a.keyHash ≠ b.keyHash := by
  unfold bytesEqual
  rw [Bool.not_eq_true', decide_eq_false_iff_not, keyHash_eq_iff]

theorem keepNew_mem {K : Type} (l : List (ValueSet K)) :
    ∀ (before e : ValueSet K), e ∈ keepNew before l → e ∈ l := by
  induction l with
  | nil => intro _ e he; exact he
  | cons current rest ih =>
    intro before e he
    unfold keepNew at he
    split at he
    · rcases List.mem_cons.mp he with h | h
      · rw [h]; exact List.mem_cons_self _ _
      · exact List.mem_cons_of_mem _ (ih current e h)
    · exact List.mem_cons_of_mem _ (ih current e he)

theorem firstOfRuns_mem {K : Type} (l : List (ValueSet K)) (e : ValueSet K)
    (he : e ∈ firstOfRuns l) : e ∈ l := by
  cases l with
  | nil => exact he
  | cons first rest =>
    unfold firstOfRuns at he
    rcases List.mem_cons.mp he with h | h
    · rw [h]; exact List.mem_cons_self _ _
    · exact List.mem_cons_of_mem _ (keepNew_mem rest first e h)

theorem find?_keyHash_cons {K : Type} (h : HashValue) (x : ValueSet K) (l : List (ValueSet K)) :
    (x :: l).find? (fun e => decide (e.keyHash = h))
      = if x.keyHash = h then some x else l.find? (fun e => decide (e.keyHash = h)) := by
  by_cases hx : x.keyHash = h
  · rw [if_pos hx]; simp [List.find?_cons, hx]
  · rw [if_neg hx]; simp [List.find?_cons, hx]

theorem keepNew_find {K : Type} (h : HashValue) (l : List (ValueSet K)) :
    ∀ before : ValueSet K, before.keyHash ≠ h →
      (keepNew before l).find? (fun e => decide (e.keyHash = h))
        = l.find? (fun e => decide (e.keyHash = h)) := by
  induction l with
  | nil => intro _ _; rfl
  | cons current rest ih =>
    intro before hb
    unfold keepNew
    by_cases hne : (!bytesEqual before.keyHash.hash.val current.keyHash.hash.val) = true
    · rw [if_pos hne, find?_keyHash_cons, find?_keyHash_cons]
      by_cases hc : current.keyHash = h
      · rw [if_pos hc, if_pos hc]
      · rw [if_neg hc, if_neg hc]
        exact ih current hc
    · rw [if_neg hne]
      have heq : before.keyHash = current.keyHash := by
        by_contra hcon
        exact hne ((bytesEqual_not_eq_true before current).mpr hcon)
      have hc : current.keyHash ≠ h := fun e => hb (heq.trans e)
      rw [find?_keyHash_cons, if_neg hc]
      exact ih current hc

theorem firstOfRuns_find {K : Type} (h : HashValue) (l : List (ValueSet K)) :
    (firstOfRuns l).find? (fun e => decide (e.keyHash = h))
      = l.find? (fun e => decide (e.keyHash = h)) := by
  cases l with
  | nil => rfl
  | cons first rest =>
    show (first :: keepNew first rest).find? _ = _
    rw [find?_keyHash_cons, find?_keyHash_cons]
    by_cases hc : first.keyHash = h
    · rw [if_pos hc, if_pos hc]
    · rw [if_neg hc, if_neg hc]
      exact keepNew_find h rest first hc

theorem keepNew_increasing {K : Type} (l : List (ValueSet K)) :
    ∀ before : ValueSet K, (before :: l).Pairwise keyHashLe →
      (∀ x ∈ keepNew before l, keyHashLt before x) ∧ (keepNew before l).Pairwise keyHashLt := by
  induction l with
  | nil =>
    intro _ _
    exact ⟨fun x hx => absurd hx (List.not_mem_nil x), List.Pairwise.nil⟩
  | cons current rest ih =>
    intro before hsorted
    rw [List.pairwise_cons] at hsorted
    obtain ⟨hfirst, htail⟩ := hsorted
    obtain ⟨hlt, hpw⟩ := ih current htail
    have hbc : keyHashLe before current := hfirst current (List.mem_cons_self _ _)
    unfold keepNew
    by_cases hne : (!bytesEqual before.keyHash.hash.val current.keyHash.hash.val) = true
    · rw [if_pos hne]
      have hbc' : keyHashLt before current :=
        keyHashLt_of_le_of_ne before current hbc
          (fun e => (bytesEqual_not_eq_true before current).mp hne ((keyHash_eq_iff _ _).mp e))
      refine ⟨?_, List.pairwise_cons.mpr ⟨hlt, hpw⟩⟩
      intro x hx
      rcases List.mem_cons.mp hx with h | h
      · rw [h]; exact hbc'
      · exact keyHashLt_trans before current x hbc' (hlt x h)
    · rw [if_neg hne]
      have heq : before.keyHash = current.keyHash := by
        by_contra hcon
        exact hne ((bytesEqual_not_eq_true before current).mpr hcon)
      refine ⟨?_, hpw⟩
      intro x hx
      have := hlt x hx
      unfold keyHashLt at this ⊢
      rw [heq]; exact this

theorem firstOfRuns_increasing {K : Type} (l : List (ValueSet K)) (hsorted : l.Pairwise keyHashLe) :
    (firstOfRuns l).Pairwise keyHashLt := by
  cases l with
  | nil => exact List.Pairwise.nil
  | cons first rest =>
    unfold firstOfRuns
    obtain ⟨hlt, hpw⟩ := keepNew_increasing rest first hsorted
    exact List.pairwise_cons.mpr ⟨hlt, hpw⟩

theorem find?_eq_head?_filter' {α : Type} (p : α → Bool) (l : List α) :
    l.find? p = (l.filter p).head? := by
  induction l with
  | nil => rfl
  | cons x xs ih =>
    by_cases hx : p x = true
    · rw [List.find?_cons_of_pos _ hx, List.filter_cons_of_pos hx]; rfl
    · rw [List.find?_cons_of_neg _ hx, List.filter_cons_of_neg hx]; exact ih

theorem sliceStable_find_keyHash {K : Type} (h : HashValue) (l : List (ValueSet K)) :
    (sliceStable keyHashLess l).find? (fun e => decide (e.keyHash = h))
      = l.find? (fun e => decide (e.keyHash = h)) := by
  rw [find?_eq_head?_filter', find?_eq_head?_filter', sliceStable_filter_keyHash]

/-! ## Lemmas: what the nibble path constructors do on every slice -/

theorem newEvenNibblePath_eq (bytes : List Byte) :
    newEvenNibblePath bytes =
      if bytes.length > 32 then .err .invalidBytesLen
      else if h : bytes.length = 32 then .ok { numNibbles := 64, bytes := ⟨bytes, h⟩ }
      else .panic .sliceToArrayTooShort := by
  unfold newEvenNibblePath
  by_cases h1 : bytes.length > 32
  · rw [if_pos h1, if_pos (by simpa using h1)]
  · rw [if_neg h1, if_neg (by simpa using h1)]
    by_cases h2 : bytes.length = 32
    · rw [dif_pos h2]
      obtain ⟨a, ha, hval⟩ := sliceToArray32_val bytes (le_of_eq h2.symm)
      rw [List.take_of_length_le (le_of_eq h2)] at hval
      simp only [ha, h2]
      congr 2
      exact Subtype.ext hval
    · rw [dif_neg h2, sliceToArray32_short bytes (by show bytes.length < 32; omega)]

theorem newOddNibblePath_eq (bytes : List Byte) :
    newOddNibblePath bytes =
      if bytes.length > 32 then .err .invalidBytesLen
      else match bytes.getLast? with
        | none => .panic .indexOutOfRange
        | some last =>
          if last.val &&& 0x0f ≠ 0 then .err .lastNibbleMustBeZero
          else if h : bytes.length = 32 then .ok { numNibbles := 63, bytes := ⟨bytes, h⟩ }
          else .panic .sliceToArrayTooShort := by
  unfold newOddNibblePath
  by_cases h1 : bytes.length > 32
  · rw [if_pos h1, if_pos (by simpa using h1)]
  · rw [if_neg h1, if_neg (by simpa using h1)]
    have hlast : (if bytes.length = 0 then none else bytes[bytes.length - 1]?) = bytes.getLast? := by
      by_cases h0 : bytes.length = 0
      · rw [if_pos h0, List.length_eq_zero.mp h0]; rfl
      · rw [if_neg h0, List.getLast?_eq_getElem?]
    rw [hlast]
    cases bytes.getLast? with
    | none => rfl
    | some last =>
      by_cases hn : last.val &&& 0x0f ≠ 0
      · show (if last.val &&& 0x0f ≠ 0 then _ else _) = (if last.val &&& 0x0f ≠ 0 then _ else _)
        rw [if_pos hn, if_pos hn]
      · show (if last.val &&& 0x0f ≠ 0 then _ else _) = (if last.val &&& 0x0f ≠ 0 then _ else _)
        rw [if_neg hn, if_neg hn]
        by_cases h2 : bytes.length = 32
        · rw [dif_pos h2]
          obtain ⟨a, ha, hval⟩ := sliceToArray32_val bytes (le_of_eq h2.symm)
          rw [List.take_of_length_le (le_of_eq h2)] at hval
          simp only [ha, h2]
          congr 2
          exact Subtype.ext hval
        · rw [dif_neg h2, sliceToArray32_short bytes (by show bytes.length < 32; omega)]

/-! ## Lemmas: copies of maps and the cache methods -/

theorem GoMap.lookup_store {κ ν : Type} [DecidableEq κ] (m : GoMap κ ν) (k k' : κ) (v : ν) :
    GoMap.lookup (GoMap.store m k v) k' = if k = k' then some v else GoMap.lookup m k' := by
  by_cases h : k = k'
  · rw [if_pos h, ← h]; exact GoMap.lookup_store_self m k v
  · rw [if_neg h]; exact GoMap.lookup_store_ne m k k' v (fun e => h e.symm)

theorem GoMap.lookup_copy {κ ν : Type} [DecidableEq κ] (dst src : GoMap κ ν) (k : κ) :
    GoMap.lookup (GoMap.copy dst src) k
      = match GoMap.lookup src k with
        | some v => some v
        | none => GoMap.lookup dst k := by
  induction src with
  | nil => rfl
  | cons kv rest ih =>
    show GoMap.lookup (GoMap.store (GoMap.copy dst rest) kv.1 kv.2) k = _
    rw [GoMap.lookup_store, GoMap.lookup_cons]
    by_cases h : kv.1 = k
    · rw [if_pos h, if_pos h]
    · rw [if_neg h, if_neg h]; exact ih

theorem lookup_mapKeys_stale (m : GoMap NodeKey Byte) (version : Version)
    (index : StaleNodeIndex) :
    GoMap.lookup (GoMap.mapKeys m fun _ k =>
        ({ StaleSinceVersion := version, NodeKey := k } : StaleNodeIndex)) index
      = if index.StaleSinceVersion = version then GoMap.lookup m index.NodeKey else none := by
  induction m with
  | nil =>
    show none = _
    split <;> rfl
  | cons kv rest ih =>
    show GoMap.lookup (GoMap.store (GoMap.mapKeys rest fun _ k =>
        ({ StaleSinceVersion := version, NodeKey := k } : StaleNodeIndex))
        { StaleSinceVersion := version, NodeKey := kv.1 } kv.2) index = _
    rw [GoMap.lookup_store, ih, GoMap.lookup_cons]
    cases index with
    | mk iv ik =>
      by_cases hv : iv = version
      · by_cases hk : kv.1 = ik
        · subst hv; subst hk; simp
        · have hne : ¬ ({ StaleSinceVersion := version, NodeKey := kv.1 } : StaleNodeIndex)
              = { StaleSinceVersion := iv, NodeKey := ik } := by
            intro e; injection e with _ e2; exact hk e2
          simp only [if_neg hne, if_pos hv, if_neg hk]
      · have hne : ¬ ({ StaleSinceVersion := version, NodeKey := kv.1 } : StaleNodeIndex)
            = { StaleSinceVersion := iv, NodeKey := ik } := by
          intro e; injection e with e1 _; exact hv e1.symm
        simp only [if_neg hne, if_neg hv]

theorem Node.Hash_ok (node : Node) : ∃ h, node.Hash = .ok h := by
  cases node with
  | nullNode =>
    show ∃ h, NullNode.Hash = .ok h
    have hok : NullNode.Hash.isOk = true := by decide
    cases hn : NullNode.Hash with
    | ok v => exact ⟨v, rfl⟩
    | err e => rw [hn] at hok; cases hok
    | panic p => rw [hn] at hok; cases hok
  | other kind hash isLeave => exact ⟨hash, rfl⟩

theorem GetNode_fst (tc : TreeCache) (nodeKey : NodeKey) : (tc.GetNode nodeKey).1 = tc := by
  unfold TreeCache.GetNode
  repeat' split
  all_goals rfl

theorem GetNode_snd (tc : TreeCache) (nodeKey : NodeKey) :
    (tc.GetNode nodeKey).2 =
      match GoMap.lookup tc.nodeCache nodeKey with
      | some v => .ok v
      | none =>
        match GoMap.lookup tc.frozenTreeCache.nodeCache nodeKey with
        | some v => .ok v
        | none =>
          match tc.reader nodeKey with
          | .ok v => .ok v
          | .err _ => .err .getNodeFailed
          | .panic p => .panic p := by
  unfold TreeCache.GetNode
  repeat' split
  all_goals rfl

/-- The cache `Freeze` leaves when it returns, `rootHash` being the hash of
the root node. -/
theorem Freeze_ok (tc : TreeCache) (rootNode : Node) (rootHash : HashValue)
    (hget : (tc.GetNode tc.GetRootNodeKey).2 = .ok rootNode)
    (hhash : rootNode.Hash = .ok rootHash) :
    tc.Freeze =
      ({ tc with
          frozenTreeCache :=
            { rootHashes := tc.frozenTreeCache.rootHashes ++ [rootHash]
              nodeStats := tc.frozenTreeCache.nodeStats ++
                [{ NewNodes := GoMap.len tc.nodeCache
                   NewLeaves := tc.numNewLeaves
                   StaleNodes := GoMap.len tc.staleNodeIndexCache
                   StaleLeaves := tc.numStaleLeaves }]
              nodeCache := GoMap.copy tc.frozenTreeCache.nodeCache tc.nodeCache
              staleNodeIndexCache := GoMap.copy tc.frozenTreeCache.staleNodeIndexCache
                (GoMap.mapKeys tc.staleNodeIndexCache fun _ k =>
                  ({ StaleSinceVersion := tc.nextVersion, NodeKey := k } : StaleNodeIndex)) }
          numStaleLeaves := 0
          numNewLeaves := 0
          nextVersion := (tc.nextVersion + 1) % uint64Size }, .ok ()) := by
  have hg : tc.GetNode tc.GetRootNodeKey = (tc, .ok rootNode) :=
    Prod.ext (GetNode_fst tc _) hget
  unfold TreeCache.Freeze
  simp only [hg, hhash]

/-- When the root node cannot be read, `Freeze` panics and the cache is as
before. -/
theorem Freeze_root_unread (tc : TreeCache)
    (hget : ∀ rootNode, (tc.GetNode tc.GetRootNodeKey).2 ≠ .ok rootNode) :
    tc.Freeze.1 = tc ∧ tc.Freeze.2.isPanic = true := by
  have hg : tc.GetNode tc.GetRootNodeKey = (tc, (tc.GetNode tc.GetRootNodeKey).2) :=
    Prod.ext (GetNode_fst tc _) rfl
  cases hr : (tc.GetNode tc.GetRootNodeKey).2 with
  | ok v => exact absurd hr (hget v)
  | err e =>
    rw [hr] at hg
    have hF : tc.Freeze = (tc, .panic .rootMustExist) := by
      unfold TreeCache.Freeze; simp only [hg]
    rw [hF]
    exact ⟨rfl, rfl⟩
  | panic p =>
    rw [hr] at hg
    have hF : tc.Freeze = (tc, .panic p) := by
      unfold TreeCache.Freeze; simp only [hg]
    rw [hF]
    exact ⟨rfl, rfl⟩

/-- In every case `Freeze` leaves the in-flight maps, the root key and the
reader of the cache as they were. -/
theorem Freeze_keeps_inflight (tc : TreeCache) :
    tc.Freeze.1.nodeCache = tc.nodeCache ∧
    tc.Freeze.1.staleNodeIndexCache = tc.staleNodeIndexCache ∧
    tc.Freeze.1.rootNodeKey = tc.rootNodeKey ∧
    tc.Freeze.1.reader = tc.reader := by
  cases hr : (tc.GetNode tc.GetRootNodeKey).2 with
  | ok rootNode =>
    obtain ⟨h, hh⟩ := Node.Hash_ok rootNode
    rw [Freeze_ok tc rootNode h hr hh]
    exact ⟨rfl, rfl, rfl, rfl⟩
  | err e =>
    have := (Freeze_root_unread tc (fun r => by rw [hr]; exact fun e => by cases e)).1
    rw [this]
    exact ⟨rfl, rfl, rfl, rfl⟩
  | panic p =>
    have := (Freeze_root_unread tc (fun r => by rw [hr]; exact fun e => by cases e)).1
    rw [this]
    exact ⟨rfl, rfl, rfl, rfl⟩

/-! ## Theorems -/

/-- C3, as the claim states it, fails: with `persistedVersion` and
`nextVersion` both equal to `PreGenesisVersion` the claimed rule holds
(`nextVersion` equals `PreGenesisVersion`), and `NewTreeCache` returns the
error `invalid nextVersion`. -/
theorem C3_counterexample_preGenesis_rejected :
    PreGenesisVersion = 2 ^ 64 - 1 ∧
    NewTreeCache emptyReader PreGenesisVersion (some PreGenesisVersion)
      = .err .invalidNextVersion ∧
    (NewTreeCache emptyReader PreGenesisVersion (some PreGenesisVersion)).isOk = false := by
  refine ⟨rfl, ?_, ?_⟩ <;> simp [NewTreeCache, Outcome.isOk]

/-- C3, amended: with a present `persistedVersion`, `NewTreeCache` returns an
error exactly when the version check of the code fails, that is when
`persistedVersion` is `PreGenesisVersion` and `nextVersion` is
`PreGenesisVersion` too, or `persistedVersion` is another version and
`nextVersion` is not greater than it; the error is then `invalid nextVersion`. -/
theorem C3_NewTreeCache_error_iff (reader : TreeReader) (nextVersion persistedVersion : Version) :
    ((NewTreeCache reader nextVersion (some persistedVersion)).isErr = true ↔
      ((persistedVersion = PreGenesisVersion ∧ nextVersion = PreGenesisVersion) ∨
       (persistedVersion ≠ PreGenesisVersion ∧ nextVersion ≤ persistedVersion))) ∧
    ((NewTreeCache reader nextVersion (some persistedVersion)).isErr = true →
      NewTreeCache reader nextVersion (some persistedVersion) = .err .invalidNextVersion) := by
  simp only [NewTreeCache, NewEmptyPathNodeKey_panics]
  by_cases h1 : persistedVersion = PreGenesisVersion
  · by_cases h2 : nextVersion = PreGenesisVersion
    · simp [h1, h2, Outcome.isErr]
    · simp [h1, h2, Outcome.isErr]
  · by_cases h2 : nextVersion ≤ persistedVersion
    · simp [h1, h2, Outcome.isErr]
    · simp [h1, h2, Outcome.isErr]

/-- C4, at the failing input: on the empty slice, which is what
`NewEmptyPathNodeKey` passes, `newEvenNibblePath` panics in the conversion of
the slice to a 32-byte array, and so does `NewEmptyPathNodeKey`; the same
happens on a slice of one byte. -/
theorem C4_newEvenNibblePath_empty_panics :
    newEvenNibblePath (makeBytes 0) = .panic .sliceToArrayTooShort ∧
    NewEmptyPathNodeKey 0 = .panic .sliceToArrayTooShort ∧
    newEvenNibblePath [0xab] = .panic .sliceToArrayTooShort := by
  decide

/-- C5, at the failing input: on the one-byte slice `0x10`, whose low nibble is
zero, `newOddNibblePath` panics in the conversion of the slice to a 32-byte
array instead of returning a path of one nibble. -/
theorem C5_newOddNibblePath_short_panics :
    newOddNibblePath [0x10] = .panic .sliceToArrayTooShort := by
  decide

/-- C6: `createLiteralHash word` returns an error exactly when the UTF-8 bytes
of `word` are more than 32, it never panics, and otherwise it returns the
32-byte hash value made of the bytes of `word` followed by zero bytes: its
first `len(word)` bytes are those of `word` and all the others are zero. -/
theorem C6_createLiteralHash (word : String) :
    ((createLiteralHash word).isErr = true ↔ (stringBytes word).length > 32) ∧
    ((createLiteralHash word).isOk = true ↔ (stringBytes word).length ≤ 32) ∧
    match createLiteralHash word with
    | .err e => e = .wordLengthTooLarge ∧ (stringBytes word).length > 32
    | .panic _ => False
    | .ok hv =>
      (stringBytes word).length ≤ 32 ∧
      hv.hash.val.length = 32 ∧
      hv.hash.val = stringBytes word ++ List.replicate (32 - (stringBytes word).length) 0 ∧
      hv.hash.val.take (stringBytes word).length = stringBytes word ∧
      ∀ i, (stringBytes word).length ≤ i → i < 32 → hv.hash.val[i]? = some 0 := by
  unfold createLiteralHash
  by_cases h : (stringBytes word).length > HashValueLength
  · rw [if_pos h]
    exact ⟨⟨fun _ => h, fun _ => rfl⟩,
      ⟨fun hok => (by simp [Outcome.isOk] at hok), fun hle => absurd h (Nat.not_lt.mpr hle)⟩,
      rfl, h⟩
  · rw [if_neg h]
    have h32 : (stringBytes word).length ≤ 32 := Nat.le_of_not_lt h
    have hlen : (stringBytes word ++ makeBytes (HashValueLength - (stringBytes word).length)).length
        = HashValueLength := by
      simp only [makeBytes, List.length_append, List.length_replicate]; omega
    obtain ⟨a, ha, hval⟩ := sliceToArray32_val _ (le_of_eq hlen.symm)
    rw [List.take_of_length_le (le_of_eq hlen)] at hval
    simp only [newHashValueFromSlice, ha]
    refine ⟨⟨fun herr => (by simp [Outcome.isErr] at herr), fun hgt => absurd hgt h⟩,
      ⟨fun _ => h32, fun _ => rfl⟩,
      h32, a.property, by simpa [makeBytes] using hval, ?_, ?_⟩
    · rw [hval]; simp
    · intro i h1 h2
      rw [hval, List.getElem?_append_right h1]
      simp only [makeBytes]
      rw [List.getElem?_replicate]
      have : i - (stringBytes word).length < HashValueLength - (stringBytes word).length := by
        show i - (stringBytes word).length < 32 - (stringBytes word).length
        omega
      simp [this]

/-- The literal hash of the two-byte word `ab`, and the error on a word of 33
bytes. -/
theorem createLiteralHash_examples :
    createLiteralHash "ab" = .ok { hash := ⟨[97, 98] ++ List.replicate 30 0, by decide⟩ } ∧
    createLiteralHash "abcdefghijklmnopqrstuvwxyz0123456" = .err .wordLengthTooLarge := by
  decide

/-- C7: `NullNode.Hash()` returns, without error or panic, the 30 ASCII bytes
of `SPARSE_MERKLE_PLACEHOLDER_HASH` followed by two zero bytes; and `Freeze`
on a cache whose root key reads as a `NullNode` returns and appends exactly
this value, as the last root hash, to the frozen root hashes. -/
theorem C7_NullNode_Hash_placeholder (tc : TreeCache)
    (hroot : (tc.GetNode tc.GetRootNodeKey).2 = .ok .nullNode) :
    ∃ hv : HashValue,
      NullNode.Hash = .ok hv ∧
      hv.hash.val = [83, 80, 65, 82, 83, 69, 95, 77, 69, 82, 75, 76, 69, 95, 80, 76, 65, 67,
        69, 72, 79, 76, 68, 69, 82, 95, 72, 65, 83, 72, 0, 0] ∧
      hv.hash.val = stringBytes "SPARSE_MERKLE_PLACEHOLDER_HASH" ++ [0, 0] ∧
      (stringBytes "SPARSE_MERKLE_PLACEHOLDER_HASH").length = 30 ∧
      tc.Freeze.2 = .ok () ∧
      tc.Freeze.1.frozenTreeCache.rootHashes = tc.frozenTreeCache.rootHashes ++ [hv] := by
  have hhash : ∃ hv : HashValue, NullNode.Hash = .ok hv ∧
      hv.hash.val = [83, 80, 65, 82, 83, 69, 95, 77, 69, 82, 75, 76, 69, 95, 80, 76, 65, 67,
        69, 72, 79, 76, 68, 69, 82, 95, 72, 65, 83, 72, 0, 0] ∧
      hv.hash.val = stringBytes "SPARSE_MERKLE_PLACEHOLDER_HASH" ++ [0, 0] ∧
      (stringBytes "SPARSE_MERKLE_PLACEHOLDER_HASH").length = 30 := by
    refine ⟨⟨⟨_, ?_⟩⟩, ?_, rfl, ?_, ?_⟩ <;> decide
  obtain ⟨hv, h1, h2, h3, h4⟩ := hhash
  refine ⟨hv, h1, h2, h3, h4, ?_⟩
  have hget : tc.GetNode tc.GetRootNodeKey = (tc, .ok .nullNode) := by
    have hfst : (tc.GetNode tc.GetRootNodeKey).1 = tc := by
      unfold TreeCache.GetNode
      repeat' split
      all_goals rfl
    exact Prod.ext hfst hroot
  unfold TreeCache.Freeze
  simp only [hget, Node.Hash, h1]
  exact ⟨trivial, trivial⟩

/-- C7 at a concrete cache: the cache of a fresh tree, whose root is a
`NullNode`. -/
theorem C7_NullNode_Hash_placeholder_witness :
    ∃ hv : HashValue,
      NullNode.Hash = .ok hv ∧
      hv.hash.val = [83, 80, 65, 82, 83, 69, 95, 77, 69, 82, 75, 76, 69, 95, 80, 76, 65, 67,
        69, 72, 79, 76, 68, 69, 82, 95, 72, 65, 83, 72, 0, 0] ∧
      hv.hash.val = stringBytes "SPARSE_MERKLE_PLACEHOLDER_HASH" ++ [0, 0] ∧
      (stringBytes "SPARSE_MERKLE_PLACEHOLDER_HASH").length = 30 ∧
      freshCache.Freeze.2 = .ok () ∧
      freshCache.Freeze.1.frozenTreeCache.rootHashes
        = freshCache.frozenTreeCache.rootHashes ++ [hv] :=
  C7_NullNode_Hash_placeholder freshCache (by decide)

/-- C8: `PutNode(key, node)` returns an error exactly when `key` is bound in the
current `nodeCache`, and then the cache is unchanged; otherwise it returns nil,
binds `key` to `node` in `nodeCache` without touching any other key, adds one
to `numNewLeaves` (a `uint` increment) exactly when `node.IsLeave()` is true,
and leaves the stale set, `numStaleLeaves`, `nextVersion`, `rootNodeKey`, the
frozen cache and the reader unchanged. -/
theorem C8_PutNode (tc : TreeCache) (key : NodeKey) (node : Node) :
    ((tc.PutNode key node).2.isErr = true ↔ (GoMap.lookup tc.nodeCache key).isSome = true) ∧
    ((GoMap.lookup tc.nodeCache key).isSome = true →
      (tc.PutNode key node).2 = .err .nodeAlreadyExists ∧ (tc.PutNode key node).1 = tc) ∧
    ((GoMap.lookup tc.nodeCache key).isSome = false →
      (tc.PutNode key node).2 = .ok () ∧
      GoMap.lookup (tc.PutNode key node).1.nodeCache key = some node ∧
      (∀ k, k ≠ key →
        GoMap.lookup (tc.PutNode key node).1.nodeCache k = GoMap.lookup tc.nodeCache k) ∧
      (tc.PutNode key node).1.numNewLeaves
        = (if node.IsLeave = true then (tc.numNewLeaves + 1) % 2 ^ 64 else tc.numNewLeaves) ∧
      (node.IsLeave = true → tc.numNewLeaves + 1 < 2 ^ 64 →
        (tc.PutNode key node).1.numNewLeaves = tc.numNewLeaves + 1) ∧
      (tc.PutNode key node).1.staleNodeIndexCache = tc.staleNodeIndexCache ∧
      (tc.PutNode key node).1.numStaleLeaves = tc.numStaleLeaves ∧
      (tc.PutNode key node).1.nextVersion = tc.nextVersion ∧
      (tc.PutNode key node).1.rootNodeKey = tc.rootNodeKey ∧
      (tc.PutNode key node).1.frozenTreeCache = tc.frozenTreeCache ∧
      (tc.PutNode key node).1.reader = tc.reader) := by
  cases hl : GoMap.lookup tc.nodeCache key with
  | some v =>
    have hput : tc.PutNode key node = (tc, .err .nodeAlreadyExists) := by
      unfold TreeCache.PutNode; rw [hl]
    rw [hput]
    exact ⟨⟨fun _ => rfl, fun _ => rfl⟩, fun _ => ⟨rfl, rfl⟩, fun h => (by simp at h)⟩
  | none =>
    by_cases hleaf : node.IsLeave = true
    · have hput : tc.PutNode key node =
          ({ tc with
              numNewLeaves := (tc.numNewLeaves + 1) % uint64Size
              nodeCache := GoMap.store tc.nodeCache key node }, .ok ()) := by
        unfold TreeCache.PutNode; rw [hl]; simp only [hleaf, if_true]
      rw [hput]
      refine ⟨⟨fun h => (by simp [Outcome.isErr] at h), fun h => (by simp at h)⟩,
        fun h => (by simp at h),
        fun _ => ⟨rfl, ?_, ?_, ?_, ?_, rfl, rfl, rfl, rfl, rfl, rfl⟩⟩
      · exact GoMap.lookup_store_self _ _ _
      · intro k hk
        exact GoMap.lookup_store_ne _ _ _ _ hk
      · rw [if_pos hleaf]
      · intro _ hlt
        exact Nat.mod_eq_of_lt hlt
    · have hput : tc.PutNode key node =
          ({ tc with nodeCache := GoMap.store tc.nodeCache key node }, .ok ()) := by
        unfold TreeCache.PutNode; rw [hl]; simp only [hleaf]; rfl
      rw [hput]
      refine ⟨⟨fun h => (by simp [Outcome.isErr] at h), fun h => (by simp at h)⟩,
        fun h => (by simp at h),
        fun _ => ⟨rfl, ?_, ?_, ?_, ?_, rfl, rfl, rfl, rfl, rfl, rfl⟩⟩
      · exact GoMap.lookup_store_self _ _ _
      · intro k hk
        exact GoMap.lookup_store_ne _ _ _ _ hk
      · rw [if_neg hleaf]
      · intro h
        exact absurd h hleaf

/-- C8 at concrete inputs: a leaf put under a new key of the fresh cache is
bound and counted, the same key put again is refused and the cache is kept. -/
theorem C8_PutNode_witness :
    (freshCache.PutNode (rootKeyAt 1) (.other Leaf (constHash 7) true)).2 = .ok () ∧
    (freshCache.PutNode (rootKeyAt 1) (.other Leaf (constHash 7) true)).1.numNewLeaves = 1 ∧
    GoMap.lookup (freshCache.PutNode (rootKeyAt 1) (.other Leaf (constHash 7) true)).1.nodeCache
      (rootKeyAt 1) = some (.other Leaf (constHash 7) true) ∧
    (freshCache.PutNode (rootKeyAt 0) (.other Leaf (constHash 7) true)).2
      = .err .nodeAlreadyExists ∧
    (freshCache.PutNode (rootKeyAt 0) (.other Leaf (constHash 7) true)).1 = freshCache :=
  have h1 := (C8_PutNode freshCache (rootKeyAt 1) (.other Leaf (constHash 7) true)).2.2 (by decide)
  have h0 := (C8_PutNode freshCache (rootKeyAt 0) (.other Leaf (constHash 7) true)).2.1 (by decide)
  ⟨h1.1, h1.2.2.2.2.1 rfl (by decide), h1.2.1, h0.1, h0.2⟩

/-- What `RemoveNode` does on a key bound in the current `nodeCache`, for
either value of `isLeaf`: it returns, deletes the key, adds no stale marker and
decrements `numNewLeaves` (a `uint` decrement). -/
theorem RemoveNode_present (tc : TreeCache) (key : NodeKey) (isLeaf : Bool)
    (hpresent : (GoMap.lookup tc.nodeCache key).isSome = true) :
    (tc.RemoveNode key isLeaf).2 = .ok () ∧
    (tc.RemoveNode key isLeaf).1.nodeCache = GoMap.delete tc.nodeCache key ∧
    (tc.RemoveNode key isLeaf).1.staleNodeIndexCache = tc.staleNodeIndexCache ∧
    (tc.RemoveNode key isLeaf).1.numStaleLeaves = tc.numStaleLeaves ∧
    (tc.RemoveNode key isLeaf).1.numNewLeaves = (tc.numNewLeaves + 2 ^ 64 - 1) % 2 ^ 64 := by
  cases hl : GoMap.lookup tc.nodeCache key with
  | none => rw [hl] at hpresent; simp at hpresent
  | some v =>
    have hrem : tc.RemoveNode key isLeaf =
        ({ tc with
            nodeCache := GoMap.delete tc.nodeCache key
            numNewLeaves := (tc.numNewLeaves + uint64Size - 1) % uint64Size }, .ok ()) := by
      unfold TreeCache.RemoveNode; rw [hl]
    rw [hrem]
    exact ⟨rfl, rfl, rfl, rfl, rfl⟩

/-- The round trip of the claim for a leaf: a leaf put under a key the cache
does not hold and removed again leaves the cache as it was. -/
theorem PutNode_RemoveNode_leaf (tc : TreeCache) (key : NodeKey) (node : Node)
    (habsent : GoMap.lookup tc.nodeCache key = none) (hleaf : node.IsLeave = true)
    (hrange : tc.numNewLeaves < 2 ^ 64) :
    (tc.PutNode key node).2 = .ok () ∧
    ((tc.PutNode key node).1.RemoveNode key node.IsLeave).2 = .ok () ∧
    ((tc.PutNode key node).1.RemoveNode key node.IsLeave).1 = tc := by
  have hput : tc.PutNode key node =
      ({ tc with
          numNewLeaves := (tc.numNewLeaves + 1) % uint64Size
          nodeCache := GoMap.store tc.nodeCache key node }, .ok ()) := by
    unfold TreeCache.PutNode; rw [habsent]; simp only [hleaf, if_true]
  rw [hput]
  refine ⟨rfl, ?_⟩
  have hrem : ∀ b, TreeCache.RemoveNode { tc with
          numNewLeaves := (tc.numNewLeaves + 1) % uint64Size
          nodeCache := GoMap.store tc.nodeCache key node } key b =
      ({ tc with
          nodeCache := GoMap.delete (GoMap.store tc.nodeCache key node) key
          numNewLeaves := ((tc.numNewLeaves + 1) % uint64Size + uint64Size - 1) % uint64Size },
        .ok ()) := by
    intro b
    unfold TreeCache.RemoveNode
    simp only [GoMap.lookup_store_self]
  rw [hrem]
  refine ⟨rfl, ?_⟩
  have hmap : GoMap.delete (GoMap.store tc.nodeCache key node) key = tc.nodeCache := by
    unfold GoMap.store
    rw [GoMap.delete_cons, if_pos rfl, GoMap.delete_of_lookup_none _ _ habsent,
      GoMap.delete_of_lookup_none _ _ habsent]
  have hnum : ((tc.numNewLeaves + 1) % uint64Size + uint64Size - 1) % uint64Size
      = tc.numNewLeaves := by
    show ((tc.numNewLeaves + 1) % 2 ^ 64 + 2 ^ 64 - 1) % 2 ^ 64 = tc.numNewLeaves
    omega
  simp only [hmap, hnum]

/-- C9, at the failing input: an internal (non-leaf) node is put under a new
key of the fresh cache, which leaves `numNewLeaves` at 0, and is removed again
with `isLeaf = false`; `RemoveNode` decrements `numNewLeaves` all the same,
which wraps to 2^64 - 1, so the state before the `PutNode` is not restored. -/
theorem C9_RemoveNode_decrements_for_non_leaf :
    Node.IsLeave (.other Internal (constHash 7) false) = false ∧
    freshCache.numNewLeaves = 0 ∧
    (freshCache.PutNode (rootKeyAt 1) (.other Internal (constHash 7) false)).2 = .ok () ∧
    (freshCache.PutNode (rootKeyAt 1) (.other Internal (constHash 7) false)).1.numNewLeaves = 0 ∧
    ((freshCache.PutNode (rootKeyAt 1) (.other Internal (constHash 7) false)).1.RemoveNode
      (rootKeyAt 1) false).2 = .ok () ∧
    ((freshCache.PutNode (rootKeyAt 1) (.other Internal (constHash 7) false)).1.RemoveNode
      (rootKeyAt 1) false).1.numNewLeaves = 2 ^ 64 - 1 ∧
    ((freshCache.PutNode (rootKeyAt 1) (.other Internal (constHash 7) false)).1.RemoveNode
      (rootKeyAt 1) false).1.nodeCache = freshCache.nodeCache := by
  decide

/-- C10: for a key that is not bound in the current `nodeCache`,
`RemoveNode(key, isLeaf)` panics exactly when `key` is already in
`staleNodeIndexCache` (the state is then as before); otherwise it returns,
adds `key` to `staleNodeIndexCache` without touching any other key, adds one
to `numStaleLeaves` (a `uint` increment) exactly when `isLeaf` is true, and
leaves `nodeCache`, `numNewLeaves`, the frozen cache, `rootNodeKey`,
`nextVersion` and the reader unchanged. -/
theorem C10_RemoveNode_absent (tc : TreeCache) (key : NodeKey) (isLeaf : Bool)
    (habsent : GoMap.lookup tc.nodeCache key = none) :
    ((tc.RemoveNode key isLeaf).2.isPanic = true ↔
      (GoMap.lookup tc.staleNodeIndexCache key).isSome = true) ∧
    ((tc.RemoveNode key isLeaf).2.isErr = false) ∧
    ((GoMap.lookup tc.staleNodeIndexCache key).isSome = true →
      (tc.RemoveNode key isLeaf).2 = .panic .staleTwice ∧ (tc.RemoveNode key isLeaf).1 = tc) ∧
    ((GoMap.lookup tc.staleNodeIndexCache key).isSome = false →
      (tc.RemoveNode key isLeaf).2 = .ok () ∧
      (GoMap.lookup (tc.RemoveNode key isLeaf).1.staleNodeIndexCache key).isSome = true ∧
      (∀ k, k ≠ key → GoMap.lookup (tc.RemoveNode key isLeaf).1.staleNodeIndexCache k
        = GoMap.lookup tc.staleNodeIndexCache k) ∧
      (tc.RemoveNode key isLeaf).1.numStaleLeaves
        = (if isLeaf = true then (tc.numStaleLeaves + 1) % 2 ^ 64 else tc.numStaleLeaves) ∧
      (isLeaf = true → tc.numStaleLeaves + 1 < 2 ^ 64 →
        (tc.RemoveNode key isLeaf).1.numStaleLeaves = tc.numStaleLeaves + 1) ∧
      (tc.RemoveNode key isLeaf).1.nodeCache = tc.nodeCache ∧
      (tc.RemoveNode key isLeaf).1.numNewLeaves = tc.numNewLeaves ∧
      (tc.RemoveNode key isLeaf).1.frozenTreeCache = tc.frozenTreeCache ∧
      (tc.RemoveNode key isLeaf).1.rootNodeKey = tc.rootNodeKey ∧
      (tc.RemoveNode key isLeaf).1.nextVersion = tc.nextVersion ∧
      (tc.RemoveNode key isLeaf).1.reader = tc.reader) := by
  cases hs : GoMap.lookup tc.staleNodeIndexCache key with
  | some v =>
    have hrem : tc.RemoveNode key isLeaf = (tc, .panic .staleTwice) := by
      unfold TreeCache.RemoveNode; rw [habsent]; simp only [hs]
    rw [hrem]
    exact ⟨⟨fun _ => rfl, fun _ => rfl⟩, rfl, fun _ => ⟨rfl, rfl⟩, fun h => (by simp at h)⟩
  | none =>
    cases isLeaf with
    | true =>
      have hrem : tc.RemoveNode key true =
          ({ tc with
              staleNodeIndexCache := GoMap.store tc.staleNodeIndexCache key 48
              numStaleLeaves := (tc.numStaleLeaves + 1) % uint64Size }, .ok ()) := by
        unfold TreeCache.RemoveNode; rw [habsent]; simp only [hs, if_true]
      rw [hrem]
      refine ⟨⟨fun h => (by simp [Outcome.isPanic] at h), fun h => (by simp at h)⟩, rfl,
        fun h => (by simp at h),
        fun _ => ⟨rfl, ?_, ?_, rfl, ?_, rfl, rfl, rfl, rfl, rfl, rfl⟩⟩
      · show (GoMap.lookup (GoMap.store tc.staleNodeIndexCache key 48) key).isSome = true
        rw [GoMap.lookup_store_self]; rfl
      · intro k hk
        exact GoMap.lookup_store_ne _ _ _ _ hk
      · intro _ hlt
        exact Nat.mod_eq_of_lt hlt
    | false =>
      have hrem : tc.RemoveNode key false =
          ({ tc with staleNodeIndexCache := GoMap.store tc.staleNodeIndexCache key 48 },
            .ok ()) := by
        unfold TreeCache.RemoveNode; rw [habsent]; simp only [hs]; rfl
      rw [hrem]
      refine ⟨⟨fun h => (by simp [Outcome.isPanic] at h), fun h => (by simp at h)⟩, rfl,
        fun h => (by simp at h),
        fun _ => ⟨rfl, ?_, ?_, rfl, ?_, rfl, rfl, rfl, rfl, rfl, rfl⟩⟩
      · show (GoMap.lookup (GoMap.store tc.staleNodeIndexCache key 48) key).isSome = true
        rw [GoMap.lookup_store_self]; rfl
      · intro k hk
        exact GoMap.lookup_store_ne _ _ _ _ hk
      · intro h
        cases h

/-- C10 at concrete inputs: a leaf key the fresh cache does not hold is marked
stale and counted once; staling it a second time panics. -/
theorem C10_RemoveNode_absent_witness :
    GoMap.lookup freshCache.nodeCache (rootKeyAt 5) = none ∧
    (freshCache.RemoveNode (rootKeyAt 5) true).2 = .ok () ∧
    (freshCache.RemoveNode (rootKeyAt 5) true).1.numStaleLeaves = 1 ∧
    (freshCache.RemoveNode (rootKeyAt 5) true).1.nodeCache = freshCache.nodeCache ∧
    ((freshCache.RemoveNode (rootKeyAt 5) true).1.RemoveNode (rootKeyAt 5) true).2
      = .panic .staleTwice :=
  have h1 := (C10_RemoveNode_absent freshCache (rootKeyAt 5) true (by decide)).2.2.2 (by decide)
  have h2 := (C10_RemoveNode_absent (freshCache.RemoveNode (rootKeyAt 5) true).1 (rootKeyAt 5)
    true (by decide)).2.2.1 (by decide)
  ⟨by decide, h1.1, h1.2.2.2.2.1 rfl (by decide), h1.2.2.2.2.2.1, h2.1⟩

/-- C1, as the claim states it, fails: of two entries with one key hash the
step keeps the first of the caller's order, while the last entry of the input
with that key hash is the other one. -/
theorem C1_counterexample_first_entry_kept :
    dedupedAndSortedKVs [entry 1 10 0, entry 1 20 1] = .ok [entry 1 10 0] ∧
    [entry 1 10 0, entry 1 20 1].reverse.find? (fun e => decide (e.keyHash = constHash 1))
      = some (entry 1 20 1) ∧
    entry 1 10 0 ≠ entry 1 20 1 := by
  decide

/-- C1, amended: for every non-empty value set the sort-and-dedup step returns,
and it keeps, for each key hash, the first entry that carried that key hash in
the caller's original order (first write wins): looking up a key hash in
`dedupedAndSortedKVs` gives the first entry of the input with that key hash
(nothing when the input has none), and every entry of `dedupedAndSortedKVs`
is the first entry of the input that carries its key hash. -/
theorem C1_first_entry_kept {K : Type} (valueSet : List (ValueSet K)) (hne : valueSet ≠ []) :
    ∃ kvs, dedupedAndSortedKVs valueSet = .ok kvs ∧
      (∀ h : HashValue, kvs.find? (fun e => decide (e.keyHash = h))
        = valueSet.find? (fun e => decide (e.keyHash = h))) ∧
      (∀ e ∈ kvs, valueSet.find? (fun x => decide (x.keyHash = e.keyHash)) = some e) := by
  refine ⟨_, dedupedAndSortedKVs_eq valueSet hne, ?_, ?_⟩
  · intro h
    rw [firstOfRuns_find, sliceStable_find_keyHash]
  · intro e he
    rw [← sliceStable_find_keyHash, ← firstOfRuns_find]
    have hinc := firstOfRuns_increasing _ (sliceStable_keyHashLe valueSet)
    have hdiff : (firstOfRuns (sliceStable keyHashLess valueSet)).Pairwise
        (fun a b => a.keyHash ≠ b.keyHash) := hinc.imp fun {a b} hab => keyHashLt_ne a b hab
    have hsymm : Symmetric fun a b : ValueSet K => a.keyHash ≠ b.keyHash :=
      fun a b hab => fun e => hab e.symm
    cases hf : (firstOfRuns (sliceStable keyHashLess valueSet)).find?
        (fun x => decide (x.keyHash = e.keyHash)) with
    | none =>
      have := List.find?_eq_none.mp hf e he
      simp at this
    | some e' =>
      have hmem : e' ∈ firstOfRuns (sliceStable keyHashLess valueSet) := List.mem_of_find?_eq_some hf
      have hkey : e'.keyHash = e.keyHash := by
        have := List.find?_some hf
        exact of_decide_eq_true this
      by_cases hee : e' = e
      · rw [hee]
      · exact absurd hkey (hdiff.forall hsymm hmem he hee)

/-- C1, amended, at a concrete value set: three entries, two of them with one
key hash. -/
theorem C1_first_entry_kept_witness :
    [entry 2 10 0, entry 1 20 1, entry 2 30 2] ≠ [] ∧
    ∃ kvs, dedupedAndSortedKVs [entry 2 10 0, entry 1 20 1, entry 2 30 2] = .ok kvs ∧
      (∀ h : HashValue, kvs.find? (fun e => decide (e.keyHash = h))
        = [entry 2 10 0, entry 1 20 1, entry 2 30 2].find? (fun e => decide (e.keyHash = h))) ∧
      (∀ e ∈ kvs, [entry 2 10 0, entry 1 20 1, entry 2 30 2].find?
        (fun x => decide (x.keyHash = e.keyHash)) = some e) :=
  ⟨by decide, C1_first_entry_kept [entry 2 10 0, entry 1 20 1, entry 2 30 2] (by decide)⟩

/-- C2: for every non-empty value set the sort-and-dedup step returns a slice
`dedupedAndSortedKVs` that is non-empty, strictly increasing by key hash in the
byte-wise lexicographic order of `bytes.Compare`, made of entries of the input,
and whose key hashes are exactly the key hashes of the input, each once. -/
theorem C2_deduped_sorted {K : Type} (valueSet : List (ValueSet K)) (hne : valueSet ≠ []) :
    ∃ kvs, dedupedAndSortedKVs valueSet = .ok kvs ∧
      kvs ≠ [] ∧
      kvs.Pairwise (fun a b => bytesCompare a.keyHash.hash.val b.keyHash.hash.val < 0) ∧
      (∀ e ∈ kvs, e ∈ valueSet) ∧
      (∀ h : HashValue, h ∈ kvs.map (fun e => e.keyHash) ↔ h ∈ valueSet.map (fun e => e.keyHash)) ∧
      (kvs.map (fun e => e.keyHash)).Nodup := by
  have hinc := firstOfRuns_increasing _ (sliceStable_keyHashLe valueSet)
  refine ⟨_, dedupedAndSortedKVs_eq valueSet hne, ?_, hinc, ?_, ?_, ?_⟩
  · have hlen : (sliceStable keyHashLess valueSet).length = valueSet.length :=
      (sliceStable_perm keyHashLess valueSet).length_eq
    cases hs : sliceStable keyHashLess valueSet with
    | nil =>
      rw [hs] at hlen
      exact absurd (List.length_eq_zero.mp hlen.symm) hne
    | cons first rest => exact List.cons_ne_nil _ _
  · intro e he
    exact (sliceStable_perm keyHashLess valueSet).mem_iff.mp (firstOfRuns_mem _ e he)
  · intro h
    have hfind : (firstOfRuns (sliceStable keyHashLess valueSet)).find?
        (fun e => decide (e.keyHash = h)) = valueSet.find? (fun e => decide (e.keyHash = h)) := by
      rw [firstOfRuns_find, sliceStable_find_keyHash]
    have key : ∀ l : List (ValueSet K), h ∈ l.map (fun e => e.keyHash) ↔
        (l.find? (fun e => decide (e.keyHash = h))).isSome = true := by
      intro l
      rw [List.find?_isSome, List.mem_map]
      constructor
      · rintro ⟨e, he, hk⟩
        exact ⟨e, he, decide_eq_true hk⟩
      · rintro ⟨e, he, hk⟩
        exact ⟨e, he, of_decide_eq_true hk⟩
    rw [key, key, hfind]
  · rw [List.Nodup, List.pairwise_map]
    exact hinc.imp fun {a b} hab => keyHashLt_ne a b hab

/-- C2 at a concrete value set: three entries, two of them with one key hash. -/
theorem C2_deduped_sorted_witness :
    [entry 2 10 0, entry 1 20 1, entry 2 30 2] ≠ [] ∧
    ∃ kvs, dedupedAndSortedKVs [entry 2 10 0, entry 1 20 1, entry 2 30 2] = .ok kvs ∧
      kvs ≠ [] ∧
      kvs.Pairwise (fun a b => bytesCompare a.keyHash.hash.val b.keyHash.hash.val < 0) ∧
      (∀ e ∈ kvs, e ∈ [entry 2 10 0, entry 1 20 1, entry 2 30 2]) ∧
      (∀ h : HashValue, h ∈ kvs.map (fun e => e.keyHash) ↔
        h ∈ [entry 2 10 0, entry 1 20 1, entry 2 30 2].map (fun e => e.keyHash)) ∧
      (kvs.map (fun e => e.keyHash)).Nodup :=
  ⟨by decide, C2_deduped_sorted [entry 2 10 0, entry 1 20 1, entry 2 30 2] (by decide)⟩

/-- The value of the step on the concrete value set of the two witnesses: the
entries sorted by key hash, the first entry of key hash 2 kept. -/
theorem dedupedAndSortedKVs_example :
    dedupedAndSortedKVs [entry 2 10 0, entry 1 20 1, entry 2 30 2]
      = .ok [entry 1 20 1, entry 2 10 0] := by
  decide

/-- C11: when `GetNode(rootNodeKey)` returns a node `r`, `Freeze` returns and
appends exactly `r.Hash()` to the frozen `rootHashes`, appends exactly one
`NodeStats` made of `len(nodeCache)`, `numNewLeaves`, `len(staleNodeIndexCache)`
and `numStaleLeaves` as they were before the call, writes every binding of
`nodeCache` to the frozen `nodeCache` (the other keys keep their frozen
binding), adds the marker of `nextVersion` before the call and `k` for every
stale key `k` (no other marker changes), resets both leaf counters to 0, sets
`nextVersion` to `nextVersion + 1` modulo 2^64 and keeps `rootNodeKey`. When
`GetNode(rootNodeKey)` does not return a node, `Freeze` panics and the cache is
as before. -/
theorem C11_Freeze (tc : TreeCache) :
    match (tc.GetNode tc.GetRootNodeKey).2 with
    | .ok r =>
      ∃ rootHash, r.Hash = .ok rootHash ∧
        tc.Freeze.2 = .ok () ∧
        tc.Freeze.1.frozenTreeCache.rootHashes = tc.frozenTreeCache.rootHashes ++ [rootHash] ∧
        tc.Freeze.1.frozenTreeCache.nodeStats = tc.frozenTreeCache.nodeStats ++
          [{ NewNodes := GoMap.len tc.nodeCache
             NewLeaves := tc.numNewLeaves
             StaleNodes := GoMap.len tc.staleNodeIndexCache
             StaleLeaves := tc.numStaleLeaves }] ∧
        (∀ k v, GoMap.lookup tc.nodeCache k = some v →
          GoMap.lookup tc.Freeze.1.frozenTreeCache.nodeCache k = some v) ∧
        (∀ k, GoMap.lookup tc.nodeCache k = none →
          GoMap.lookup tc.Freeze.1.frozenTreeCache.nodeCache k
            = GoMap.lookup tc.frozenTreeCache.nodeCache k) ∧
        (∀ k, (GoMap.lookup tc.staleNodeIndexCache k).isSome = true →
          (GoMap.lookup tc.Freeze.1.frozenTreeCache.staleNodeIndexCache
            { StaleSinceVersion := tc.nextVersion, NodeKey := k }).isSome = true) ∧
        (∀ index : StaleNodeIndex,
          ¬ (index.StaleSinceVersion = tc.nextVersion ∧
              (GoMap.lookup tc.staleNodeIndexCache index.NodeKey).isSome = true) →
          GoMap.lookup tc.Freeze.1.frozenTreeCache.staleNodeIndexCache index
            = GoMap.lookup tc.frozenTreeCache.staleNodeIndexCache index) ∧
        tc.Freeze.1.numNewLeaves = 0 ∧
        tc.Freeze.1.numStaleLeaves = 0 ∧
        tc.Freeze.1.nextVersion = (tc.nextVersion + 1) % 2 ^ 64 ∧
        tc.Freeze.1.rootNodeKey = tc.rootNodeKey
    | _ => tc.Freeze.2.isPanic = true ∧ tc.Freeze.1 = tc := by
  cases hr : (tc.GetNode tc.GetRootNodeKey).2 with
  | ok r =>
    obtain ⟨h, hh⟩ := Node.Hash_ok r
    refine ⟨h, hh, ?_⟩
    rw [Freeze_ok tc r h hr hh]
    refine ⟨rfl, rfl, rfl, ?_, ?_, ?_, ?_, rfl, rfl, rfl, rfl⟩
    · intro k v hk
      show GoMap.lookup (GoMap.copy tc.frozenTreeCache.nodeCache tc.nodeCache) k = some v
      rw [GoMap.lookup_copy, hk]
    · intro k hk
      show GoMap.lookup (GoMap.copy tc.frozenTreeCache.nodeCache tc.nodeCache) k = _
      rw [GoMap.lookup_copy, hk]
    · intro k hk
      show (GoMap.lookup (GoMap.copy tc.frozenTreeCache.staleNodeIndexCache _) _).isSome = true
      rw [GoMap.lookup_copy, lookup_mapKeys_stale]
      simp only [if_true]
      cases hl : GoMap.lookup tc.staleNodeIndexCache k with
      | none => rw [hl] at hk; cases hk
      | some b => rfl
    · intro index hindex
      show GoMap.lookup (GoMap.copy tc.frozenTreeCache.staleNodeIndexCache _) index = _
      rw [GoMap.lookup_copy, lookup_mapKeys_stale]
      by_cases hv : index.StaleSinceVersion = tc.nextVersion
      · rw [if_pos hv]
        cases hl : GoMap.lookup tc.staleNodeIndexCache index.NodeKey with
        | none => rfl
        | some b => exact absurd ⟨hv, by rw [hl]; rfl⟩ hindex
      · rw [if_neg hv]
  | err e =>
    have h := Freeze_root_unread tc (fun r => by rw [hr]; exact fun e => by cases e)
    exact ⟨h.2, h.1⟩
  | panic p =>
    have h := Freeze_root_unread tc (fun r => by rw [hr]; exact fun e => by cases e)
    exact ⟨h.2, h.1⟩

/-- C11 on two concrete caches: the fresh cache with one key marked stale,
whose `Freeze` returns and records the `NullNode` root, one new node and the
marker of version 0; and a cache whose root key is bound nowhere, whose
`Freeze` panics. -/
theorem C11_Freeze_examples :
    (freshCache.RemoveNode (rootKeyAt 5) true).1.Freeze.2 = .ok () ∧
    (freshCache.RemoveNode (rootKeyAt 5) true).1.Freeze.1.frozenTreeCache.nodeStats
      = [{ NewNodes := 1, NewLeaves := 0, StaleNodes := 1, StaleLeaves := 1 }] ∧
    (freshCache.RemoveNode (rootKeyAt 5) true).1.Freeze.1.frozenTreeCache.staleNodeIndexCache
      = [({ StaleSinceVersion := 0, NodeKey := rootKeyAt 5 }, 48)] ∧
    (freshCache.RemoveNode (rootKeyAt 5) true).1.Freeze.1.nextVersion = 1 ∧
    (freshCache.SetRootNodeKey (rootKeyAt 9)).Freeze.2 = .panic .rootMustExist := by
  decide

/-- What two calls of `Freeze` in a row do on every cache whose root node can
be read: both return, the second appends the root hash of the first again, and
its `NodeStats` counts the nodes and stale nodes of the first once more (the
in-flight maps are not emptied) with zero leaves; every stale key gets a second
marker, of the next version. -/
theorem Freeze_twice (tc : TreeCache) (r : Node)
    (hget : (tc.GetNode tc.GetRootNodeKey).2 = .ok r) :
    tc.Freeze.2 = .ok () ∧ tc.Freeze.1.Freeze.2 = .ok () ∧
    ∃ h, r.Hash = .ok h ∧
      tc.Freeze.1.Freeze.1.frozenTreeCache.rootHashes
        = tc.frozenTreeCache.rootHashes ++ [h] ++ [h] ∧
      tc.Freeze.1.Freeze.1.frozenTreeCache.nodeStats
        = tc.frozenTreeCache.nodeStats ++
          [{ NewNodes := GoMap.len tc.nodeCache
             NewLeaves := tc.numNewLeaves
             StaleNodes := GoMap.len tc.staleNodeIndexCache
             StaleLeaves := tc.numStaleLeaves }] ++
          [{ NewNodes := GoMap.len tc.nodeCache
             NewLeaves := 0
             StaleNodes := GoMap.len tc.staleNodeIndexCache
             StaleLeaves := 0 }] ∧
      ∀ k, (GoMap.lookup tc.staleNodeIndexCache k).isSome = true →
        (GoMap.lookup tc.Freeze.1.Freeze.1.frozenTreeCache.staleNodeIndexCache
          { StaleSinceVersion := (tc.nextVersion + 1) % 2 ^ 64, NodeKey := k }).isSome = true := by
  obtain ⟨h, hh⟩ := Node.Hash_ok r
  have e1 := Freeze_ok tc r h hget hh
  have hget1 : (tc.Freeze.1.GetNode tc.Freeze.1.GetRootNodeKey).2 = .ok r := by
    rw [e1]
    rw [GetNode_snd] at hget ⊢
    show (match GoMap.lookup tc.nodeCache tc.rootNodeKey with
      | some v => Outcome.ok v
      | none =>
        match GoMap.lookup (GoMap.copy tc.frozenTreeCache.nodeCache tc.nodeCache)
            tc.rootNodeKey with
        | some v => Outcome.ok v
        | none =>
          match tc.reader tc.rootNodeKey with
          | .ok v => Outcome.ok v
          | .err _ => Outcome.err GoError.getNodeFailed
          | .panic p => Outcome.panic p) = Outcome.ok r
    rw [GoMap.lookup_copy]
    cases hl : GoMap.lookup tc.nodeCache tc.rootNodeKey with
    | some v =>
      have hl' : GoMap.lookup tc.nodeCache tc.GetRootNodeKey = some v := hl
      rw [hl'] at hget
      exact hget
    | none =>
      have hl' : GoMap.lookup tc.nodeCache tc.GetRootNodeKey = none := hl
      rw [hl'] at hget
      exact hget
  have e2 := Freeze_ok tc.Freeze.1 r h hget1 hh
  refine ⟨by rw [e1], by rw [e2], h, hh, ?_, ?_, ?_⟩
  · rw [e2]
    show tc.Freeze.1.frozenTreeCache.rootHashes ++ [h] = _
    rw [e1]
  · rw [e2]
    show tc.Freeze.1.frozenTreeCache.nodeStats ++
      [{ NewNodes := GoMap.len tc.Freeze.1.nodeCache
         NewLeaves := tc.Freeze.1.numNewLeaves
         StaleNodes := GoMap.len tc.Freeze.1.staleNodeIndexCache
         StaleLeaves := tc.Freeze.1.numStaleLeaves }] = _
    rw [e1]
  · intro k hk
    rw [e2]
    show (GoMap.lookup (GoMap.copy tc.Freeze.1.frozenTreeCache.staleNodeIndexCache
      (GoMap.mapKeys tc.Freeze.1.staleNodeIndexCache fun _ k =>
        ({ StaleSinceVersion := tc.Freeze.1.nextVersion, NodeKey := k } : StaleNodeIndex)))
      _).isSome = true
    have hnv : tc.Freeze.1.nextVersion = (tc.nextVersion + 1) % 2 ^ 64 := by rw [e1]
    have hst : tc.Freeze.1.staleNodeIndexCache = tc.staleNodeIndexCache :=
      (Freeze_keeps_inflight tc).2.1
    rw [GoMap.lookup_copy, lookup_mapKeys_stale, hnv, hst]
    dsimp only
    rw [if_pos rfl]
    cases hl : GoMap.lookup tc.staleNodeIndexCache k with
    | none => rw [hl] at hk; cases hk
    | some b => rfl

/-- C12, at the failing input: the cache of a fresh tree, whose `nodeCache`
holds the `NullNode` root, is frozen twice in a row. Both calls return and
append the same root hash, but the `NodeStats` of the second call has
`NewNodes = 1`, not 0: `Freeze` leaves `nodeCache` as it was, so the second
call counts its one node again. -/
theorem C12_second_Freeze_counts_nodes_again :
    freshCache.Freeze.2 = .ok () ∧
    freshCache.Freeze.1.Freeze.2 = .ok () ∧
    freshCache.Freeze.1.Freeze.1.frozenTreeCache.rootHashes.length = 2 ∧
    freshCache.Freeze.1.Freeze.1.frozenTreeCache.rootHashes[0]?
      = freshCache.Freeze.1.Freeze.1.frozenTreeCache.rootHashes[1]? ∧
    freshCache.Freeze.1.Freeze.1.frozenTreeCache.nodeStats[1]?
      = some { NewNodes := 1, NewLeaves := 0, StaleNodes := 0, StaleLeaves := 0 } ∧
    freshCache.Freeze.1.nodeCache = freshCache.nodeCache ∧
    freshCache.Freeze.1.nodeCache ≠ [] := by
  decide

/-- C13, at the failing input: in the cache of a fresh tree a key is staled by
`RemoveNode` while `nextVersion` is 0, and the cache is frozen twice. The
frozen stale set then holds two markers for that key, one of version 0 and one
of version 1: `Freeze` leaves `staleNodeIndexCache` as it was, so the second
call emits the key again. -/
theorem C13_second_Freeze_emits_marker_again :
    freshCache.nextVersion = 0 ∧
    (freshCache.RemoveNode (rootKeyAt 5) true).2 = .ok () ∧
    (freshCache.RemoveNode (rootKeyAt 5) true).1.Freeze.2 = .ok () ∧
    (freshCache.RemoveNode (rootKeyAt 5) true).1.Freeze.1.Freeze.2 = .ok () ∧
    (GoMap.lookup
      (freshCache.RemoveNode (rootKeyAt 5) true).1.Freeze.1.Freeze.1.frozenTreeCache.staleNodeIndexCache
      { StaleSinceVersion := 0, NodeKey := rootKeyAt 5 }).isSome = true ∧
    (GoMap.lookup
      (freshCache.RemoveNode (rootKeyAt 5) true).1.Freeze.1.Freeze.1.frozenTreeCache.staleNodeIndexCache
      { StaleSinceVersion := 1, NodeKey := rootKeyAt 5 }).isSome = true ∧
    GoMap.len
      (freshCache.RemoveNode (rootKeyAt 5) true).1.Freeze.1.Freeze.1.frozenTreeCache.staleNodeIndexCache
      = 2 := by
  decide

/-- C14: `GetNode(key)` returns the node bound to `key` in the current
`nodeCache` if there is one, else the node bound in the frozen `nodeCache` if
there is one, else what the reader returns for `key` (its error wrapped); it
returns an error exactly when `key` is in neither cache and the reader returns
an error; and the cache after the call is the cache before it. -/
theorem C14_GetNode (tc : TreeCache) (key : NodeKey) :
    (tc.GetNode key).1 = tc ∧
    ((tc.GetNode key).2 =
      match GoMap.lookup tc.nodeCache key with
      | some v => .ok v
      | none =>
        match GoMap.lookup tc.frozenTreeCache.nodeCache key with
        | some v => .ok v
        | none =>
          match tc.reader key with
          | .ok v => .ok v
          | .err _ => .err .getNodeFailed
          | .panic p => .panic p) ∧
    ((tc.GetNode key).2.isErr = true ↔
      (GoMap.lookup tc.nodeCache key = none ∧
       GoMap.lookup tc.frozenTreeCache.nodeCache key = none ∧
       (tc.reader key).isErr = true)) := by
  refine ⟨GetNode_fst tc key, GetNode_snd tc key, ?_⟩
  rw [GetNode_snd]
  cases h1 : GoMap.lookup tc.nodeCache key with
  | some v => simp [Outcome.isErr]
  | none =>
    cases h2 : GoMap.lookup tc.frozenTreeCache.nodeCache key with
    | some v => simp [Outcome.isErr]
    | none =>
      cases h3 : tc.reader key with
      | ok v => simp [Outcome.isErr]
      | err e => simp [Outcome.isErr]
      | panic p => simp [Outcome.isErr]

/-- C14 on concrete caches: a key of the current cache, a key of the frozen
cache only, and a key of neither with a reader that fails. -/
theorem C14_GetNode_examples :
    (freshCache.GetNode (rootKeyAt 0)).2 = .ok .nullNode ∧
    (({ freshCache.Freeze.1 with nodeCache := [] } : TreeCache).GetNode (rootKeyAt 0)).2
      = .ok .nullNode ∧
    (freshCache.GetNode (rootKeyAt 7)).2 = .err .getNodeFailed := by
  decide

theorem newEvenNibblePath_ok (bytes : List Byte) (np : NibblePath)
    (h : newEvenNibblePath bytes = .ok np) :
    ∃ hlen : bytes.length = 32, np = { numNibbles := 64, bytes := ⟨bytes, hlen⟩ } := by
  rw [newEvenNibblePath_eq] at h
  by_cases h1 : bytes.length > 32
  · rw [if_pos h1] at h; cases h
  · rw [if_neg h1] at h
    by_cases h2 : bytes.length = 32
    · rw [dif_pos h2] at h
      injection h with h
      exact ⟨h2, h.symm⟩
    · rw [dif_neg h2] at h; cases h

theorem newOddNibblePath_ok (bytes : List Byte) (np : NibblePath)
    (h : newOddNibblePath bytes = .ok np) :
    ∃ (hlen : bytes.length = 32) (last : Byte), bytes.getLast? = some last ∧
      last.val &&& 0x0f = 0 ∧ np = { numNibbles := 63, bytes := ⟨bytes, hlen⟩ } := by
  rw [newOddNibblePath_eq] at h
  by_cases h1 : bytes.length > 32
  · rw [if_pos h1] at h; cases h
  · rw [if_neg h1] at h
    cases hlast : bytes.getLast? with
    | none => rw [hlast] at h; cases h
    | some last =>
      rw [hlast] at h
      by_cases hn : last.val &&& 0x0f ≠ 0
      · have h' : (Outcome.err GoError.lastNibbleMustBeZero : Outcome NibblePath) = .ok np := by
          rw [← h]; show _ = (if last.val &&& 0x0f ≠ 0 then _ else _); rw [if_pos hn]
        cases h'
      · have hz : last.val &&& 0x0f = 0 := not_not.mp hn
        by_cases h2 : bytes.length = 32
        · have h' : (Outcome.ok { numNibbles := 63, bytes := ⟨bytes, h2⟩ } : Outcome NibblePath)
              = .ok np := by
            rw [← h]; show _ = (if last.val &&& 0x0f ≠ 0 then _ else _)
            rw [if_neg hn, dif_pos h2]
          injection h' with h'
          exact ⟨h2, last, rfl, hz, h'.symm⟩
        · have h' : (Outcome.panic GoPanic.sliceToArrayTooShort : Outcome NibblePath)
              = .ok np := by
            rw [← h]; show _ = (if last.val &&& 0x0f ≠ 0 then _ else _)
            rw [if_neg hn, dif_neg h2]
          cases h'

/-- C18: every nibble path that `newEvenNibblePath` or `newOddNibblePath`
returns has at most 64 nibbles; when the number of nibbles is odd, the low
nibble of the last used byte, at index `(numNibbles - 1) / 2`, is zero; and
every byte of index at least `ceil(numNibbles / 2)` is zero. -/
theorem C18_NibblePath_invariant (bytes : List Byte) (np : NibblePath)
    (hok : newEvenNibblePath bytes = .ok np ∨ newOddNibblePath bytes = .ok np) :
    np.numNibbles ≤ 64 ∧
    (np.numNibbles % 2 = 1 →
      ∃ last, np.bytes.val[(np.numNibbles - 1) / 2]? = some last ∧ last.val &&& 0x0f = 0) ∧
    (∀ i, (np.numNibbles + 1) / 2 ≤ i → i < 32 → np.bytes.val[i]? = some 0) := by
  rcases hok with h | h
  · obtain ⟨hlen, hnp⟩ := newEvenNibblePath_ok bytes np h
    subst hnp
    refine ⟨Nat.le_refl 64, fun hodd => ?_, fun i h1 h2 => ?_⟩
    · have hodd' : 64 % 2 = 1 := hodd
      exact absurd hodd' (by decide)
    · have h1' : (64 + 1) / 2 ≤ i := h1
      omega
  · obtain ⟨hlen, last, hlast, hz, hnp⟩ := newOddNibblePath_ok bytes np h
    subst hnp
    refine ⟨(by decide : 63 ≤ 64), fun _ => ⟨last, ?_, hz⟩, fun i h1 h2 => ?_⟩
    · show bytes[(63 - 1) / 2]? = some last
      rw [← hlast, List.getLast?_eq_getElem?, hlen]
    · have h1' : (63 + 1) / 2 ≤ i := h1
      omega

/-- C18 at concrete inputs: thirty-two bytes `0x10`, which both constructors
accept, the odd one returning a path of 63 nibbles. -/
theorem C18_NibblePath_invariant_witness :
    (newOddNibblePath bytes32 = .ok { numNibbles := 63, bytes := ⟨bytes32, by decide⟩ }) ∧
    (63 ≤ 64 ∧
    (63 % 2 = 1 → ∃ last : Byte, bytes32[(63 - 1) / 2]? = some last ∧ last.val &&& 0x0f = 0) ∧
    (∀ i, (63 + 1) / 2 ≤ i → i < 32 → bytes32[i]? = some 0)) ∧
    (newEvenNibblePath bytes32 = .ok { numNibbles := 64, bytes := ⟨bytes32, by decide⟩ }) :=
  ⟨by decide,
   C18_NibblePath_invariant bytes32 { numNibbles := 63, bytes := ⟨bytes32, by decide⟩ }
     (Or.inr (by decide)),
   by decide⟩

theorem PutNode_eq (tc : TreeCache) (key : NodeKey) (node : Node) :
    tc.PutNode key node =
      match GoMap.lookup tc.nodeCache key with
      | some _ => (tc, .err .nodeAlreadyExists)
      | none =>
        ({ tc with
            numNewLeaves :=
              if node.IsLeave = true then (tc.numNewLeaves + 1) % uint64Size else tc.numNewLeaves
            nodeCache := GoMap.store tc.nodeCache key node }, .ok ()) := by
  unfold TreeCache.PutNode
  cases hl : GoMap.lookup tc.nodeCache key with
  | some v => rfl
  | none =>
    by_cases hleaf : node.IsLeave = true
    · simp only [hleaf, if_true]
    · simp only [hleaf]
      rfl

theorem PutNode_of_ok (tc : TreeCache) (key : NodeKey) (node : Node)
    (hput : (tc.PutNode key node).2 = .ok ()) :
    GoMap.lookup tc.nodeCache key = none ∧
    (tc.PutNode key node).1.nodeCache = GoMap.store tc.nodeCache key node ∧
    (tc.PutNode key node).1.frozenTreeCache = tc.frozenTreeCache ∧
    (tc.PutNode key node).1.reader = tc.reader := by
  rw [PutNode_eq] at hput ⊢
  cases hl : GoMap.lookup tc.nodeCache key with
  | some v => rw [hl] at hput; cases hput
  | none => exact ⟨rfl, rfl, rfl, rfl⟩

theorem PutNode_frozen (tc : TreeCache) (key : NodeKey) (node : Node) :
    (tc.PutNode key node).1.frozenTreeCache = tc.frozenTreeCache ∧
    (tc.PutNode key node).2.isPanic = false := by
  rw [PutNode_eq]
  cases hl : GoMap.lookup tc.nodeCache key with
  | some v => exact ⟨rfl, rfl⟩
  | none => exact ⟨rfl, rfl⟩

theorem RemoveNode_frozen (tc : TreeCache) (key : NodeKey) (isLeaf : Bool) :
    (tc.RemoveNode key isLeaf).1.frozenTreeCache = tc.frozenTreeCache := by
  unfold TreeCache.RemoveNode
  cases h1 : GoMap.lookup tc.nodeCache key with
  | some v => rfl
  | none =>
    cases h2 : GoMap.lookup tc.staleNodeIndexCache key with
    | some b => rfl
    | none => cases isLeaf <;> rfl

theorem freezeTimes_inflight (n : Nat) :
    ∀ tc : TreeCache, (freezeTimes n tc).nodeCache = tc.nodeCache ∧
      (freezeTimes n tc).reader = tc.reader := by
  induction n with
  | zero => intro tc; exact ⟨rfl, rfl⟩
  | succ n ih =>
    intro tc
    show (freezeTimes n tc.Freeze.1).nodeCache = _ ∧ (freezeTimes n tc.Freeze.1).reader = _
    have h := Freeze_keeps_inflight tc
    rw [(ih tc.Freeze.1).1, (ih tc.Freeze.1).2, h.1, h.2.2.2]
    exact ⟨rfl, rfl⟩

/-- C20: when `PutNode(key, node)` returns nil, a `GetNode(key)` right after it
returns exactly `node`, whatever the reader is (the reader is not asked);
`GetNode` of every other key returns what it returned before the `PutNode`;
and `GetNode(key)` still returns `node` after any number of `Freeze` calls. -/
theorem C20_read_after_write (tc : TreeCache) (key : NodeKey) (node : Node)
    (hput : (tc.PutNode key node).2 = .ok ()) :
    ((tc.PutNode key node).1.GetNode key).2 = .ok node ∧
    (∀ reader : TreeReader,
      (({ (tc.PutNode key node).1 with reader := reader } : TreeCache).GetNode key).2
        = .ok node) ∧
    (∀ other, other ≠ key →
      ((tc.PutNode key node).1.GetNode other).2 = (tc.GetNode other).2) ∧
    (∀ n, ((freezeTimes n (tc.PutNode key node).1).GetNode key).2 = .ok node) := by
  obtain ⟨_, hnc, hfrozen, hreader⟩ := PutNode_of_ok tc key node hput
  refine ⟨?_, ?_, ?_, ?_⟩
  · rw [GetNode_snd, hnc, GoMap.lookup_store_self]
  · intro reader
    rw [GetNode_snd]
    show (match GoMap.lookup (tc.PutNode key node).1.nodeCache key with
      | some v => Outcome.ok v
      | none => _) = _
    rw [hnc, GoMap.lookup_store_self]
  · intro other hne
    rw [GetNode_snd, GetNode_snd, hnc, hfrozen, hreader, GoMap.lookup_store_ne _ _ _ _ hne]
  · intro n
    rw [GetNode_snd, (freezeTimes_inflight n _).1, hnc, GoMap.lookup_store_self]

/-- C20 at concrete inputs: a leaf put under a new key of the fresh cache, read
back at once, with another reader, and after three calls of `Freeze`; the root
key reads as before. -/
theorem C20_read_after_write_witness :
    (freshCache.PutNode (rootKeyAt 1) (.other Leaf (constHash 7) true)).2 = .ok () ∧
    ((freshCache.PutNode (rootKeyAt 1) (.other Leaf (constHash 7) true)).1.GetNode
      (rootKeyAt 1)).2 = .ok (.other Leaf (constHash 7) true) ∧
    ((freshCache.PutNode (rootKeyAt 1) (.other Leaf (constHash 7) true)).1.GetNode
      (rootKeyAt 0)).2 = (freshCache.GetNode (rootKeyAt 0)).2 ∧
    ((freezeTimes 3 (freshCache.PutNode (rootKeyAt 1) (.other Leaf (constHash 7) true)).1).GetNode
      (rootKeyAt 1)).2 = .ok (.other Leaf (constHash 7) true) :=
  have h := C20_read_after_write freshCache (rootKeyAt 1) (.other Leaf (constHash 7) true)
    (by decide)
  ⟨by decide, h.1, h.2.2.1 (rootKeyAt 0) (by decide), h.2.2.2 3⟩

/-- The outcome of `NewTreeCache` is never a cache: it is the error of the
version check, or the panic of `NewEmptyPathNodeKey`. -/
theorem NewTreeCache_outcome (reader : TreeReader) (nextVersion : Version)
    (persistedVersion : Option Version) :
    NewTreeCache reader nextVersion persistedVersion = .err .invalidNextVersion ∨
    NewTreeCache reader nextVersion persistedVersion = .panic .sliceToArrayTooShort := by
  cases persistedVersion with
  | none => right; simp only [NewTreeCache, NewEmptyPathNodeKey_panics]
  | some version =>
    simp only [NewTreeCache, NewEmptyPathNodeKey_panics]
    by_cases h1 : version = PreGenesisVersion
    · by_cases h2 : nextVersion = PreGenesisVersion
      · left; simp [h1, h2]
      · right; simp [h1, h2]
    · by_cases h2 : nextVersion ≤ version
      · left; simp [h1, h2]
      · right; simp [h1, h2]

/-- An iteration of the loop of `BatchPutValueSets` on a nil cache panics. -/
theorem batchPutOneWith_nil {K : Type} (insert : InsertFn K) (firstVersion : Version)
    (idx : Nat) (valueSet : List (ValueSet K)) (hashSet : HashCache) :
    batchPutOneWith insert firstVersion none idx valueSet hashSet = .panic .nilDereference := by
  unfold batchPutOneWith
  by_cases h : valueSet.length < 1
  · rw [if_pos h]
  · rw [if_neg h]
    have hne : valueSet ≠ [] := by
      intro e; rw [e] at h; exact h Nat.zero_lt_one
    simp only [dedupedAndSortedKVs_eq valueSet hne]

/-- The loop of `BatchPutValueSets` on a nil cache: it ends at once on an empty
list and panics in its first iteration otherwise. -/
theorem batchPutLoopWith_nil {K : Type} (insert : InsertFn K) (firstVersion : Version)
    (idx : Nat) (items : List (List (ValueSet K) × HashCache)) :
    batchPutLoopWith insert firstVersion none idx items
      = if items.isEmpty = true then Outcome.ok none else Outcome.panic GoPanic.nilDereference := by
  cases items with
  | nil => rfl
  | cons item rest =>
    cases item with
    | mk valueSet hashSet =>
      unfold batchPutLoopWith
      rw [batchPutOneWith_nil]
      rfl

/-- When `NewTreeCache` returns its error, `BatchPutValueSets` panics, whatever
the value sets and node hashes are. -/
theorem BatchPutValueSets_after_error {K : Type} (reader : TreeReader)
    (valueSets : List (List (ValueSet K))) (nodeHashes : Option (List HashCache))
    (persistedVersion : Option Version) (firstVersion : Version) (e : GoError)
    (herr : NewTreeCache reader firstVersion persistedVersion = .err e) :
    BatchPutValueSets reader valueSets nodeHashes persistedVersion firstVersion
        = .panic .lengthMismatch ∨
    BatchPutValueSets reader valueSets nodeHashes persistedVersion firstVersion
        = .panic .nilDereference := by
  unfold BatchPutValueSets
  rw [herr]
  simp only [batchPutLoop, batchPutLoopWith_nil]
  split_ifs
  · left; rfl
  · right; rfl
  · right; rfl

/-- The source never gets through `BatchPutValueSets`: every call panics. -/
theorem BatchPutValueSets_panics {K : Type} (reader : TreeReader)
    (valueSets : List (List (ValueSet K))) (nodeHashes : Option (List HashCache))
    (persistedVersion : Option Version) (firstVersion : Version) :
    (BatchPutValueSets reader valueSets nodeHashes persistedVersion firstVersion).isPanic
      = true := by
  rcases NewTreeCache_outcome reader firstVersion persistedVersion with h | h
  · rcases BatchPutValueSets_after_error reader valueSets nodeHashes persistedVersion
      firstVersion _ h with h' | h' <;> rw [h'] <;> rfl
  · unfold BatchPutValueSets
    rw [h]
    rfl

/-- C15, at the failing input: with `persistedVersion = 5` and
`firstVersion = 3` the version check of `NewTreeCache` fails and it returns its
error, which `BatchPutValueSets` does not look at; on the empty list of value
sets the call then panics in `From` on the nil cache, and on a list with one
value set it panics in the first iteration, instead of returning the error. -/
theorem C15_BatchPutValueSets_panics_on_invalid_version :
    NewTreeCache emptyReader 3 (some 5) = .err .invalidNextVersion ∧
    BatchPutValueSets emptyReader ([] : List (List (ValueSet Nat))) none (some 5) 3
      = .panic .nilDereference ∧
    BatchPutValueSets emptyReader [[entry 1 10 0]] none (some 5) 3 = .panic .nilDereference ∧
    BatchPutValueSets emptyReader [([] : List (ValueSet Nat))] none (some 5) 3
      = .panic .nilDereference := by
  refine ⟨?_, ?_, ?_, ?_⟩
  · rfl
  · decide
  · decide
  · decide

/-- The two outcomes of `Freeze`: a panic that leaves the cache as it was, or a
return that appends one root hash and one `NodeStats` and copies the in-flight
maps into the frozen ones. -/
theorem Freeze_cases (tc : TreeCache) :
    (tc.Freeze.2.isPanic = true ∧ tc.Freeze.1 = tc) ∨
    (tc.Freeze.2 = .ok () ∧ ∃ rootHash stats,
      tc.Freeze.1.frozenTreeCache.rootHashes = tc.frozenTreeCache.rootHashes ++ [rootHash] ∧
      tc.Freeze.1.frozenTreeCache.nodeStats = tc.frozenTreeCache.nodeStats ++ [stats] ∧
      tc.Freeze.1.frozenTreeCache.nodeCache
        = GoMap.copy tc.frozenTreeCache.nodeCache tc.nodeCache ∧
      tc.Freeze.1.frozenTreeCache.staleNodeIndexCache
        = GoMap.copy tc.frozenTreeCache.staleNodeIndexCache
            (GoMap.mapKeys tc.staleNodeIndexCache fun _ k =>
              ({ StaleSinceVersion := tc.nextVersion, NodeKey := k } : StaleNodeIndex)) ∧
      tc.Freeze.1.nextVersion = (tc.nextVersion + 1) % 2 ^ 64) := by
  cases hr : (tc.GetNode tc.GetRootNodeKey).2 with
  | ok r =>
    obtain ⟨h, hh⟩ := Node.Hash_ok r
    right
    rw [Freeze_ok tc r h hr hh]
    exact ⟨rfl, h, _, rfl, rfl, rfl, rfl, rfl⟩
  | err e =>
    have h := Freeze_root_unread tc (fun r => by rw [hr]; exact fun e => by cases e)
    exact Or.inl ⟨h.2, h.1⟩
  | panic p =>
    have h := Freeze_root_unread tc (fun r => by rw [hr]; exact fun e => by cases e)
    exact Or.inl ⟨h.2, h.1⟩

theorem GoMap.lookup_copy_isSome {κ ν : Type} [DecidableEq κ] (dst src : GoMap κ ν) (k : κ)
    (h : (GoMap.lookup dst k).isSome = true) :
    (GoMap.lookup (GoMap.copy dst src) k).isSome = true := by
  rw [GoMap.lookup_copy]
  cases GoMap.lookup src k with
  | some v => rfl
  | none => exact h

/-- Every call leaves the frozen cache as it was, except a `Freeze` that
returns. -/
theorem applyOp_frozen (tc : TreeCache) (op : CacheOp)
    (h : op.isFreeze = false ∨ (applyOp tc op).2.isPanic = true) :
    (applyOp tc op).1.frozenTreeCache = tc.frozenTreeCache := by
  cases op with
  | getNode nodeKey =>
    have h1 := GetNode_fst tc nodeKey
    show (match tc.GetNode nodeKey with
      | (tc, .ok _) => (tc, Outcome.ok ())
      | (tc, .err e) => (tc, Outcome.err e)
      | (tc, .panic p) => (tc, Outcome.panic p)).1.frozenTreeCache = _
    cases hg : tc.GetNode nodeKey with
    | mk c r =>
      rw [hg] at h1
      cases r <;> exact congrArg TreeCache.frozenTreeCache h1
  | putNode nodeKey newNode => exact (PutNode_frozen tc nodeKey newNode).1
  | removeNode oldNodeKey isLeaf => exact RemoveNode_frozen tc oldNodeKey isLeaf
  | setRootNodeKey rootNodeKey => rfl
  | freeze =>
    rcases h with h | h
    · cases h
    · rcases Freeze_cases tc with ⟨_, h2⟩ | ⟨h2, _⟩
      · exact congrArg TreeCache.frozenTreeCache h2
      · have h' : tc.Freeze.2.isPanic = true := h
        rw [h2] at h'
        cases h'

/-- A `Freeze` that does not panic returns nil and appends one entry to each of
the two frozen lists. -/
theorem applyOp_freeze (tc : TreeCache) (h : (applyOp tc .freeze).2.isPanic = false) :
    (applyOp tc .freeze).1.frozenTreeCache.rootHashes.length
      = tc.frozenTreeCache.rootHashes.length + 1 ∧
    (applyOp tc .freeze).1.frozenTreeCache.nodeStats.length
      = tc.frozenTreeCache.nodeStats.length + 1 := by
  rcases Freeze_cases tc with ⟨h1, _⟩ | ⟨_, rootHash, stats, h1, h2, _⟩
  · have h' : tc.Freeze.2.isPanic = false := h
    rw [h1] at h'
    cases h'
  · show tc.Freeze.1.frozenTreeCache.rootHashes.length = _ ∧
      tc.Freeze.1.frozenTreeCache.nodeStats.length = _
    rw [h1, h2, List.length_append, List.length_append]
    exact ⟨rfl, rfl⟩

theorem runOps_cons (tc : TreeCache) (freezes : Nat) (op : CacheOp) (rest : List CacheOp) :
    runOps tc freezes (op :: rest) =
      if (applyOp tc op).2.isPanic = true then ((applyOp tc op).1, freezes)
      else runOps (applyOp tc op).1 (if op.isFreeze = true then freezes + 1 else freezes) rest := by
  show (match applyOp tc op with
    | (tc, .panic _) => (tc, freezes)
    | (tc, _) => runOps tc (if op.isFreeze then freezes + 1 else freezes) rest) = _
  cases applyOp tc op with
  | mk c r => cases r <;> rfl

/-- Along a run the two frozen lists grow by one entry for each `Freeze` that
returned. -/
theorem runOps_lengths (ops : List CacheOp) :
    ∀ (tc : TreeCache) (freezes : Nat),
      (runOps tc freezes ops).1.frozenTreeCache.rootHashes.length + freezes
        = tc.frozenTreeCache.rootHashes.length + (runOps tc freezes ops).2 ∧
      (runOps tc freezes ops).1.frozenTreeCache.nodeStats.length + freezes
        = tc.frozenTreeCache.nodeStats.length + (runOps tc freezes ops).2 := by
  induction ops with
  | nil => intro tc freezes; exact ⟨rfl, rfl⟩
  | cons op rest ih =>
    intro tc freezes
    rw [runOps_cons]
    by_cases hp : (applyOp tc op).2.isPanic = true
    · rw [if_pos hp]
      show (applyOp tc op).1.frozenTreeCache.rootHashes.length + freezes = _ ∧
        (applyOp tc op).1.frozenTreeCache.nodeStats.length + freezes = _
      rw [applyOp_frozen tc op (Or.inr hp)]
      exact ⟨rfl, rfl⟩
    · rw [if_neg hp]
      have hp' : (applyOp tc op).2.isPanic = false := by
        cases hb : (applyOp tc op).2.isPanic with
        | true => exact absurd hb hp
        | false => rfl
      obtain ⟨ih1, ih2⟩ := ih (applyOp tc op).1 (if op.isFreeze = true then freezes + 1 else freezes)
      by_cases hf : op.isFreeze = true
      · rw [if_pos hf] at ih1 ih2 ⊢
        have hop : op = .freeze := by
          cases op <;> first | rfl | cases hf
        subst hop
        obtain ⟨h1, h2⟩ := applyOp_freeze tc hp'
        rw [h1] at ih1
        rw [h2] at ih2
        constructor <;> omega
      · rw [if_neg hf] at ih1 ih2 ⊢
        have hf' : op.isFreeze = false := by
          cases hb : op.isFreeze with
          | true => exact absurd hb hf
          | false => rfl
        rw [applyOp_frozen tc op (Or.inl hf')] at ih1 ih2
        exact ⟨ih1, ih2⟩

/-- C17: from a cache whose frozen part is new, as `NewTreeCache` makes it,
every state reached by calls of `GetNode`, `PutNode`, `RemoveNode`,
`SetRootNodeKey` and `Freeze` has frozen `rootHashes` and `nodeStats` of one
length, the number of `Freeze` calls that returned; and on every cache every
such call keeps the entries the two lists had, in place (the lists before the
call are prefixes of the lists after it), and keeps every key of the frozen
`nodeCache` and of the frozen stale set. -/
theorem C17_alignment (tc0 : TreeCache) (ops : List CacheOp)
    (hnew : tc0.frozenTreeCache = newFrozenTreeCache) :
    (runOps tc0 0 ops).1.frozenTreeCache.rootHashes.length = (runOps tc0 0 ops).2 ∧
    (runOps tc0 0 ops).1.frozenTreeCache.nodeStats.length = (runOps tc0 0 ops).2 ∧
    (∀ (tc : TreeCache) (op : CacheOp),
      tc.frozenTreeCache.rootHashes <+: (applyOp tc op).1.frozenTreeCache.rootHashes ∧
      tc.frozenTreeCache.nodeStats <+: (applyOp tc op).1.frozenTreeCache.nodeStats ∧
      (∀ k, (GoMap.lookup tc.frozenTreeCache.nodeCache k).isSome = true →
        (GoMap.lookup (applyOp tc op).1.frozenTreeCache.nodeCache k).isSome = true) ∧
      (∀ index, (GoMap.lookup tc.frozenTreeCache.staleNodeIndexCache index).isSome = true →
        (GoMap.lookup (applyOp tc op).1.frozenTreeCache.staleNodeIndexCache index).isSome
          = true)) := by
  obtain ⟨h1, h2⟩ := runOps_lengths ops tc0 0
  rw [hnew] at h1 h2
  refine ⟨by simpa [newFrozenTreeCache] using h1, by simpa [newFrozenTreeCache] using h2, ?_⟩
  intro tc op
  by_cases hkeep : op.isFreeze = false ∨ (applyOp tc op).2.isPanic = true
  · rw [applyOp_frozen tc op hkeep]
    exact ⟨List.prefix_refl _, List.prefix_refl _, fun _ h => h, fun _ h => h⟩
  · have hop : op = .freeze := by
      cases op <;> first | rfl | exact absurd (Or.inl rfl) hkeep
    subst hop
    rcases Freeze_cases tc with ⟨hp, _⟩ | ⟨_, rootHash, stats, e1, e2, e3, e4, _⟩
    · exact absurd (Or.inr hp) hkeep
    · show tc.frozenTreeCache.rootHashes <+: tc.Freeze.1.frozenTreeCache.rootHashes ∧
        tc.frozenTreeCache.nodeStats <+: tc.Freeze.1.frozenTreeCache.nodeStats ∧
        (∀ k, (GoMap.lookup tc.frozenTreeCache.nodeCache k).isSome = true →
          (GoMap.lookup tc.Freeze.1.frozenTreeCache.nodeCache k).isSome = true) ∧
        (∀ index, (GoMap.lookup tc.frozenTreeCache.staleNodeIndexCache index).isSome = true →
          (GoMap.lookup tc.Freeze.1.frozenTreeCache.staleNodeIndexCache index).isSome = true)
      rw [e1, e2, e3, e4]
      exact ⟨List.prefix_append _ _, List.prefix_append _ _,
        fun k h => GoMap.lookup_copy_isSome _ _ k h,
        fun index h => GoMap.lookup_copy_isSome _ _ index h⟩

/-- C17 on a concrete run from the fresh cache: a put, a freeze, a removal that
marks a key stale, a second freeze, a read and a change of the root key to a
key bound nowhere, on which the third freeze panics. Two freezes returned and
both lists have two entries. -/
theorem C17_alignment_witness :
    freshCache.frozenTreeCache = newFrozenTreeCache ∧
    (runOps freshCache 0
      [.putNode (rootKeyAt 1) (.other Leaf (constHash 7) true), .freeze,
       .removeNode (rootKeyAt 5) true, .freeze, .getNode (rootKeyAt 1),
       .setRootNodeKey (rootKeyAt 9), .freeze]).2 = 2 ∧
    (runOps freshCache 0
      [.putNode (rootKeyAt 1) (.other Leaf (constHash 7) true), .freeze,
       .removeNode (rootKeyAt 5) true, .freeze, .getNode (rootKeyAt 1),
       .setRootNodeKey (rootKeyAt 9), .freeze]).1.frozenTreeCache.rootHashes.length = 2 ∧
    (runOps freshCache 0
      [.putNode (rootKeyAt 1) (.other Leaf (constHash 7) true), .freeze,
       .removeNode (rootKeyAt 5) true, .freeze, .getNode (rootKeyAt 1),
       .setRootNodeKey (rootKeyAt 9), .freeze]).1.frozenTreeCache.nodeStats.length = 2 :=
  have h := C17_alignment freshCache
    [.putNode (rootKeyAt 1) (.other Leaf (constHash 7) true), .freeze,
     .removeNode (rootKeyAt 5) true, .freeze, .getNode (rootKeyAt 1),
     .setRootNodeKey (rootKeyAt 9), .freeze] rfl
  ⟨rfl, by decide, h.1.trans (by decide), h.2.1.trans (by decide)⟩

/-! ## Lemmas: the loop of `BatchPutValueSets` -/

/-- An iteration that completes on a cache: the cache it froze, `frozenFrom`, is
the cache of the start for an empty value set, and otherwise the cache the
insertion returned with its new root key; the insertion was called with the
root key of the start and the version `firstVersion + idx` modulo 2^64. -/
theorem batchPutOneWith_ok {K : Type} (insert : InsertFn K) (firstVersion : Version)
    (tc : TreeCache) (idx : Nat) (valueSet : List (ValueSet K)) (hashSet : HashCache)
    (result : Option TreeCache)
    (h : batchPutOneWith insert firstVersion (some tc) idx valueSet hashSet = .ok result) :
    ∃ frozenFrom after : TreeCache, result = some after ∧
      frozenFrom.Freeze = (after, .ok ()) ∧
      ((valueSet = [] ∧ frozenFrom = tc) ∨
       (valueSet ≠ [] ∧ ∃ kvs k, dedupedAndSortedKVs valueSet = .ok kvs ∧
          (insert tc.GetRootNodeKey ((firstVersion + idx) % 2 ^ 64) kvs 0 hashSet tc).newNodeKey
            = some k ∧
          frozenFrom = (insert tc.GetRootNodeKey ((firstVersion + idx) % 2 ^ 64) kvs 0 hashSet
            tc).treeCache.SetRootNodeKey k)) := by
  unfold batchPutOneWith at h
  by_cases hlen : valueSet.length < 1
  · rw [if_pos hlen] at h
    have hnil : valueSet = [] := List.length_eq_zero.mp (by omega)
    cases hF : tc.Freeze with
    | mk c r =>
      cases r with
      | ok u =>
        simp only [hF] at h
        injection h with h
        exact ⟨tc, c, h.symm, hF, Or.inl ⟨hnil, rfl⟩⟩
      | err e => simp [hF] at h
      | panic p => simp [hF] at h
  · rw [if_neg hlen] at h
    have hne : valueSet ≠ [] := by
      intro e; rw [e] at hlen; exact hlen Nat.zero_lt_one
    have hkvs := dedupedAndSortedKVs_eq valueSet hne
    cases herr : (insert tc.GetRootNodeKey ((firstVersion + idx) % uint64Size)
        (firstOfRuns (sliceStable keyHashLess valueSet)) 0 hashSet tc).err with
    | some e => simp [hkvs, herr] at h
    | none =>
      cases hkey : (insert tc.GetRootNodeKey ((firstVersion + idx) % uint64Size)
          (firstOfRuns (sliceStable keyHashLess valueSet)) 0 hashSet tc).newNodeKey with
      | none => simp [hkvs, herr, hkey] at h
      | some k =>
        cases hF : ((insert tc.GetRootNodeKey ((firstVersion + idx) % uint64Size)
            (firstOfRuns (sliceStable keyHashLess valueSet)) 0 hashSet tc).treeCache.SetRootNodeKey
              k).Freeze with
        | mk c r =>
          cases r with
          | ok u =>
            simp only [hkvs, herr, hkey, hF] at h
            injection h with h
            exact ⟨_, c, h.symm, hF, Or.inr ⟨hne, _, k, hkvs, hkey, rfl⟩⟩
          | err e => simp [hkvs, herr, hkey, hF] at h
          | panic p => simp [hkvs, herr, hkey, hF] at h

theorem batchPutLoopWith_cons {K : Type} (insert : InsertFn K) (firstVersion : Version)
    (treeCache : Option TreeCache) (idx : Nat) (valueSet : List (ValueSet K))
    (hashSet : HashCache) (rest : List (List (ValueSet K) × HashCache)) :
    batchPutLoopWith insert firstVersion treeCache idx ((valueSet, hashSet) :: rest) =
      match batchPutOneWith insert firstVersion treeCache idx valueSet hashSet with
      | .ok treeCache => batchPutLoopWith insert firstVersion treeCache (idx + 1) rest
      | .err e => .err e
      | .panic p => .panic p := by
  rfl

/-- A loop that ends with a cache, unfolded by one iteration. -/
theorem batchPutLoopWith_ok_cons {K : Type} (insert : InsertFn K) (firstVersion : Version)
    (tc after : TreeCache) (idx : Nat) (valueSet : List (ValueSet K)) (hashSet : HashCache)
    (rest : List (List (ValueSet K) × HashCache))
    (h : batchPutLoopWith insert firstVersion (some tc) idx ((valueSet, hashSet) :: rest)
      = .ok (some after)) :
    ∃ mid, batchPutOneWith insert firstVersion (some tc) idx valueSet hashSet = .ok (some mid) ∧
      batchPutLoopWith insert firstVersion (some mid) (idx + 1) rest = .ok (some after) := by
  rw [batchPutLoopWith_cons] at h
  cases hone : batchPutOneWith insert firstVersion (some tc) idx valueSet hashSet with
  | err e => rw [hone] at h; cases h
  | panic p => rw [hone] at h; cases h
  | ok result =>
    rw [hone] at h
    obtain ⟨_, mid, hres, _, _⟩ := batchPutOneWith_ok insert firstVersion tc idx valueSet hashSet
      result hone
    subst hres
    exact ⟨mid, rfl, h⟩

/-- A loop over two lists one after the other, ending with a cache, is the loop
over the first, ending with a cache, followed by the loop over the second. -/
theorem batchPutLoopWith_ok_append {K : Type} (insert : InsertFn K) (firstVersion : Version)
    (before : List (List (ValueSet K) × HashCache)) :
    ∀ (tc after : TreeCache) (idx : Nat) (rest : List (List (ValueSet K) × HashCache)),
      batchPutLoopWith insert firstVersion (some tc) idx (before ++ rest) = .ok (some after) →
      ∃ mid, batchPutLoopWith insert firstVersion (some tc) idx before = .ok (some mid) ∧
        batchPutLoopWith insert firstVersion (some mid) (idx + before.length) rest
          = .ok (some after) := by
  induction before with
  | nil => intro tc after idx rest h; exact ⟨tc, rfl, h⟩
  | cons item before ih =>
    intro tc after idx rest h
    cases item with
    | mk valueSet hashSet =>
      obtain ⟨mid1, h1, h2⟩ := batchPutLoopWith_ok_cons insert firstVersion tc after idx valueSet
        hashSet (before ++ rest) h
      obtain ⟨mid, h3, h4⟩ := ih mid1 after (idx + 1) rest h2
      refine ⟨mid, ?_, ?_⟩
      · rw [batchPutLoopWith_cons, h1]; exact h3
      · rw [List.length_cons, ← Nat.add_assoc, Nat.add_right_comm idx before.length 1]
        exact h4

/-- What a `Freeze` that returned has done to the frozen cache and to
`nextVersion`. -/
theorem Freeze_of_ok (frozenFrom after : TreeCache)
    (h : frozenFrom.Freeze = (after, .ok ())) :
    ∃ rootHash stats,
      after.frozenTreeCache.rootHashes = frozenFrom.frozenTreeCache.rootHashes ++ [rootHash] ∧
      after.frozenTreeCache.nodeStats = frozenFrom.frozenTreeCache.nodeStats ++ [stats] ∧
      after.frozenTreeCache.staleNodeIndexCache
        = GoMap.copy frozenFrom.frozenTreeCache.staleNodeIndexCache
            (GoMap.mapKeys frozenFrom.staleNodeIndexCache fun _ k =>
              ({ StaleSinceVersion := frozenFrom.nextVersion, NodeKey := k } : StaleNodeIndex)) ∧
      after.nextVersion = (frozenFrom.nextVersion + 1) % 2 ^ 64 := by
  rcases Freeze_cases frozenFrom with ⟨hp, _⟩ | ⟨_, rootHash, stats, e1, e2, _, e4, e5⟩
  · rw [h] at hp; cases hp
  · rw [h] at e1 e2 e4 e5
    exact ⟨rootHash, stats, e1, e2, e4, e5⟩

/-- The version after a loop that completes, for an insertion that leaves
`nextVersion` alone. -/
theorem batchPutLoopWith_nextVersion {K : Type} (insert : InsertFn K)
    (hinsert : ∀ nodeKey version kvs depth hashCache tc,
      (insert nodeKey version kvs depth hashCache tc).treeCache.nextVersion = tc.nextVersion)
    (firstVersion : Version) (items : List (List (ValueSet K) × HashCache)) :
    ∀ (tc after : TreeCache) (idx : Nat),
      batchPutLoopWith insert firstVersion (some tc) idx items = .ok (some after) →
      tc.nextVersion = (firstVersion + idx) % 2 ^ 64 →
      after.nextVersion = (firstVersion + idx + items.length) % 2 ^ 64 := by
  induction items with
  | nil =>
    intro tc after idx h hstart
    have h' : Outcome.ok (some tc) = Outcome.ok (some after) := h
    injection h' with h'
    injection h' with h'
    rw [← h', hstart]
    rfl
  | cons item rest ih =>
    intro tc after idx h hstart
    cases item with
    | mk valueSet hashSet =>
      obtain ⟨mid, h1, h2⟩ := batchPutLoopWith_ok_cons insert firstVersion tc after idx valueSet
        hashSet rest h
      obtain ⟨frozenFrom, mid', hres, hF, hfrom⟩ := batchPutOneWith_ok insert firstVersion tc idx
        valueSet hashSet (some mid) h1
      injection hres with hres
      subst hres
      obtain ⟨_, _, _, _, _, hnv⟩ := Freeze_of_ok frozenFrom mid hF
      have hfv : frozenFrom.nextVersion = tc.nextVersion := by
        rcases hfrom with ⟨_, e⟩ | ⟨_, kvs, k, _, _, e⟩
        · rw [e]
        · rw [e]; exact hinsert _ _ _ _ _ _
      have key : ∀ a b : Nat, ((a + b) % 2 ^ 64 + 1) % 2 ^ 64 = (a + (b + 1)) % 2 ^ 64 := by
        intro a b; omega
      have key2 : ∀ a b c : Nat, (a + (b + 1) + c) % 2 ^ 64 = (a + b + (c + 1)) % 2 ^ 64 := by
        intro a b c; omega
      have hmid : mid.nextVersion = (firstVersion + (idx + 1)) % 2 ^ 64 := by
        rw [hnv, hfv, hstart]; exact key _ _
      have := ih mid after (idx + 1) h2 hmid
      rw [this, List.length_cons]
      exact key2 _ _ _

/-- The frozen lists after a loop that completes, for an insertion that leaves
them alone: one entry more for each value set, the entries of the start kept
in place. -/
theorem batchPutLoopWith_lengths {K : Type} (insert : InsertFn K)
    (hinsert : ∀ nodeKey version kvs depth hashCache tc,
      (insert nodeKey version kvs depth hashCache tc).treeCache.frozenTreeCache.rootHashes
        = tc.frozenTreeCache.rootHashes ∧
      (insert nodeKey version kvs depth hashCache tc).treeCache.frozenTreeCache.nodeStats
        = tc.frozenTreeCache.nodeStats)
    (firstVersion : Version) (items : List (List (ValueSet K) × HashCache)) :
    ∀ (tc after : TreeCache) (idx : Nat),
      batchPutLoopWith insert firstVersion (some tc) idx items = .ok (some after) →
      after.frozenTreeCache.rootHashes.length
        = tc.frozenTreeCache.rootHashes.length + items.length ∧
      after.frozenTreeCache.nodeStats.length
        = tc.frozenTreeCache.nodeStats.length + items.length ∧
      tc.frozenTreeCache.rootHashes <+: after.frozenTreeCache.rootHashes ∧
      tc.frozenTreeCache.nodeStats <+: after.frozenTreeCache.nodeStats := by
  induction items with
  | nil =>
    intro tc after idx h
    have h' : Outcome.ok (some tc) = Outcome.ok (some after) := h
    injection h' with h'
    injection h' with h'
    rw [← h']
    exact ⟨rfl, rfl, List.prefix_refl _, List.prefix_refl _⟩
  | cons item rest ih =>
    intro tc after idx h
    cases item with
    | mk valueSet hashSet =>
      obtain ⟨mid, h1, h2⟩ := batchPutLoopWith_ok_cons insert firstVersion tc after idx valueSet
        hashSet rest h
      obtain ⟨frozenFrom, mid', hres, hF, hfrom⟩ := batchPutOneWith_ok insert firstVersion tc idx
        valueSet hashSet (some mid) h1
      injection hres with hres
      subst hres
      obtain ⟨rootHash, stats, e1, e2, _, _⟩ := Freeze_of_ok frozenFrom mid hF
      have hfr : frozenFrom.frozenTreeCache.rootHashes = tc.frozenTreeCache.rootHashes ∧
          frozenFrom.frozenTreeCache.nodeStats = tc.frozenTreeCache.nodeStats := by
        rcases hfrom with ⟨_, e⟩ | ⟨_, kvs, k, _, _, e⟩
        · rw [e]; exact ⟨rfl, rfl⟩
        · rw [e]; exact hinsert _ _ _ _ _ _
      rw [hfr.1] at e1
      rw [hfr.2] at e2
      obtain ⟨l1, l2, p1, p2⟩ := ih mid after (idx + 1) h2
      rw [e1] at l1 p1
      rw [e2] at l2 p2
      rw [List.length_append] at l1 l2
      refine ⟨?_, ?_, (List.prefix_append _ _).trans p1, (List.prefix_append _ _).trans p2⟩
      · rw [l1]; simp only [List.length_cons, List.length_nil]; omega
      · rw [l2]; simp only [List.length_cons, List.length_nil]; omega

/-- With the `batchInsertAt` of the source, which returns a nil node key, the
iteration of a non-empty value set panics on the dereference of
`newRootNodeKey`. -/
theorem batchPutOne_nonempty {K : Type} (firstVersion : Version) (tc : TreeCache) (idx : Nat)
    (valueSet : List (ValueSet K)) (hashSet : HashCache) (hne : valueSet ≠ []) :
    batchPutOne firstVersion (some tc) idx valueSet hashSet = .panic .nilDereference := by
  unfold batchPutOne batchPutOneWith
  have hlen : ¬ valueSet.length < 1 := by
    intro h
    exact hne (List.length_eq_zero.mp (by omega))
  rw [if_neg hlen]
  simp only [dedupedAndSortedKVs_eq valueSet hne, batchInsertAt]

/-- C16, at the failing input: a single non-empty value set put into a fresh
tree (`persistedVersion` nil, `firstVersion` 0, `nodeHashes` nil). The call
does not succeed and returns no root hash: `NewTreeCache`, which makes the
root key with `NewEmptyPathNodeKey`, panics in the conversion of the empty
slice to a 32-byte array, and so does `BatchPutValueSets`. -/
theorem C16_single_value_set_into_fresh_tree_panics :
    NewEmptyPathNodeKey 0 = .panic .sliceToArrayTooShort ∧
    (NewTreeCache emptyReader 0 none).isPanic = true ∧
    BatchPutValueSets emptyReader [[entry 1 10 0]] none none 0 = .panic .sliceToArrayTooShort ∧
    (BatchPutValueSets emptyReader [[entry 1 10 0]] none none 0).isOk = false := by
  refine ⟨?_, ?_, ?_, ?_⟩
  · decide
  · rfl
  · decide
  · decide

end JellyfishMerkle
